import Mathlib

/-!
Verification development for the `flowing` dataflow-graph library.

The embedding follows the Rust sources:
* `src/connection.rs` — `Connection`
* `src/node.rs` — the `Node` trait (modelled by the `NodeOps` record)
* `src/graph.rs` — `Graph` with its mutation, ordering and execution operations
* `src/nodes/{variable,addition,delay}.rs` — the three concrete node kinds

Modelling conventions:
* `NodeId`/`InputId`/`OutputId` are `u32` newtypes used only for equality and
  lookup; they are modelled as `Nat`.  The one place `u32` arithmetic happens
  (the `next_node_id.0 += 1` counter) is modelled with a checked-overflow
  guard: Rust integer overflow is a program error (panic under overflow
  checks), so an `add_node` call that would overflow the counter is modelled
  as `none` (no resulting state).
* `f64` port values are modelled as `ℚ`; every value exercised by the claims
  is a small integer on which IEEE double arithmetic is exact and agrees
  with rational arithmetic.
* `HashMap<NodeId, N>` is modelled as an association list with unique keys.
  Hash-map iteration order in Rust is randomized per map instance (the
  `in_degree` map inside `calc_processing_order` is freshly created on every
  call, with a fresh random hash seed), so the order in which
  `calc_processing_order` enumerates the `in_degree` entries when seeding its
  queue is an explicit parameter `π` — an arbitrary permutation of the node
  keys.  All invariants are proved for every such `π`.
* Panicking `unwrap`s on lookups that the surrounding code guarantees to
  succeed (all of them only reachable for graphs whose connections are valid)
  are modelled with `getD` defaults; the theorems below only concern graphs
  reachable through the public API, on which these lookups always succeed.
* Rust `Result<T, GraphError>` is `Except GraphError T`; a possible panic
  (an `unwrap` of a `calc_processing_order` result, or counter overflow) is
  an outer `Option`.
-/

namespace Flowing

/-- `src/connection.rs`: directed edge between a source node output and a
target node input.  Field order matches the Rust struct. -/
structure Connection where
  source_node : Nat
  source_output : Nat
  target_input : Nat
  target_node : Nat
deriving DecidableEq, Repr

/-- `src/connection.rs`: `Connection::new`. -/
def Connection.new (source_node source_output target_node target_input : Nat) : Connection :=
  { source_node := source_node, source_output := source_output,
    target_input := target_input, target_node := target_node }

/-- `src/graph.rs`: `GraphError`. -/
inductive GraphError where
  | ConnectionNotExists : Connection → GraphError
  | CycleWithoutDelay : GraphError
  | InputAlreadyConnected : Nat → Nat → GraphError
  | InputNotExists : Nat → Nat → GraphError
  | NodeNotExists : Nat → GraphError
  | OutputNotExists : Nat → Nat → GraphError
deriving DecidableEq, Repr

/-- `src/node.rs`: the `Node` trait, as a record of operations over a node
state type `N` (get/set/process are functional: they return the new state). -/
structure NodeOps (N : Type) where
  delayed_processing : N → Bool
  get_output : N → Nat → ℚ
  list_inputs : N → List Nat
  list_outputs : N → List Nat
  process : N → N
  set_input : N → Nat → ℚ → N

/-- Association-list lookup, standing for `HashMap::get`. -/
def mapGet {N : Type} (m : List (Nat × N)) (k : Nat) : Option N :=
  match m with
  | [] => none
  | p :: m => if p.1 = k then some p.2 else mapGet m k

/-- `HashMap::insert`: replaces the value when the key is present. -/
def mapInsert {N : Type} (m : List (Nat × N)) (k : Nat) (v : N) : List (Nat × N) :=
  if m.any (fun p => p.1 == k) then
    m.map (fun p => if p.1 = k then (p.1, v) else p)
  else
    m ++ [(k, v)]

/-- `HashMap::remove` (the removed value, if any, is read via `mapGet`). -/
def mapRemove {N : Type} (m : List (Nat × N)) (k : Nat) : List (Nat × N) :=
  m.filter (fun p => p.1 ≠ k)

/-- In-place value update for a present key (callers in `graph.rs` `unwrap`
the lookup, which only succeeds when the key is live; on an absent key the
Rust code would panic and this model is a no-op). -/
def mapUpdate {N : Type} (m : List (Nat × N)) (k : Nat) (f : N → N) : List (Nat × N) :=
  m.map (fun p => if p.1 = k then (p.1, f p.2) else p)

/-- Key list of an association list (`HashMap::keys`). -/
def mapKeys {N : Type} (m : List (Nat × N)) : List Nat :=
  m.map (fun p => p.1)

/-- `src/graph.rs`: the `Graph` struct. -/
structure Graph (N : Type) where
  connections : List Connection
  next_node_id : Nat
  nodes : List (Nat × N)
  processing_order : List Nat

/-- `src/graph.rs`: `Graph::new`. -/
def Graph.new {N : Type} : Graph N :=
  { connections := [], next_node_id := 0, nodes := [], processing_order := [] }

/-- `src/graph.rs`: `Graph::get_node`. -/
def Graph.get_node {N : Type} (g : Graph N) (id : Nat) : Except GraphError N :=
  match mapGet g.nodes id with
  | some n => .ok n
  | none => .error (.NodeNotExists id)

/-- `src/graph.rs`: `Graph::validate_connection`. -/
def Graph.validate_connection {N : Type} (ops : NodeOps N) (g : Graph N)
    (c : Connection) : Except GraphError Connection :=
  match g.get_node c.source_node with
  | .error e => .error e
  | .ok source =>
    match g.get_node c.target_node with
    | .error e => .error e
    | .ok target =>
      if c.source_output ∉ ops.list_outputs source then
        .error (.OutputNotExists c.source_node c.source_output)
      else if c.target_input ∉ ops.list_inputs target then
        .error (.InputNotExists c.target_node c.target_input)
      else
        .ok c

/-- `delayed_processing` of a live node; the `get_node(..).unwrap()` calls in
`calc_processing_order` presuppose the id is live (default `false` is never
reached on valid graphs). -/
def delayedB {N : Type} (ops : NodeOps N) (g : Graph N) (id : Nat) : Bool :=
  ((mapGet g.nodes id).map ops.delayed_processing).getD false

/-- Value of an in-degree entry (`in_degree.get(..).unwrap()`; the default is
never reached on valid graphs, where every connection target is a key). -/
def degGet (d : List (Nat × Nat)) (k : Nat) : Nat :=
  match d with
  | [] => 0
  | p :: d => if p.1 = k then p.2 else degGet d k

/-- `in_degree.entry(k).and_modify(|d| *d += 1)`: increments iff present. -/
def degIncr (d : List (Nat × Nat)) (k : Nat) : List (Nat × Nat) :=
  d.map (fun p => if p.1 = k then (p.1, p.2 + 1) else p)

/-- `in_degree.entry(k).and_modify(|d| *d -= 1)`: decrements iff present
(`usize` underflow would be a panic; the invariant proofs show every
decrement acts on a strictly positive entry). -/
def degDecr (d : List (Nat × Nat)) (k : Nat) : List (Nat × Nat) :=
  d.map (fun p => if p.1 = k then (p.1, p.2 - 1) else p)

/-- First phase of `Graph::calc_processing_order`: build the `in_degree` map
(every live node starts at 0; each connection whose source does not introduce
delay increments its target).  The entry list is ordered by `π`, the
(hash-randomized) iteration order of the freshly created map. -/
def initDegree {N : Type} (ops : NodeOps N) (g : Graph N) (π : List Nat) :
    List (Nat × Nat) :=
  g.connections.foldl
    (fun d c => if delayedB ops g c.source_node then d else degIncr d c.target_node)
    (π.map (fun k => (k, 0)))

/-- One dequeued non-delaying `node` in the topological sort: iterate over all
connections; each one leaving `node` decrements its target's in-degree and
pushes the target once the in-degree reaches 0.  State is `(in_degree, queue)`. -/
def relaxStep (node : Nat)
    (st : List (Nat × Nat) × List Nat) (c : Connection) :
    List (Nat × Nat) × List Nat :=
  if c.source_node = node then
    let d := degDecr st.1 c.target_node
    if degGet d c.target_node = 0 then (d, st.2 ++ [c.target_node]) else (d, st.2)
  else st

/-- The `while !queue.is_empty()` loop of `Graph::calc_processing_order`,
with explicit fuel (each iteration pops one queue element; the invariant
proofs show `|nodes|` fuel always suffices on valid graphs).  Returns the
`order` and `delayed` lists. -/
def sortLoop {N : Type} (ops : NodeOps N) (g : Graph N) :
    Nat → List Nat → List (Nat × Nat) → List Nat → List Nat → List Nat × List Nat
  | 0, _, _, order, delayed => (order, delayed)
  | _ + 1, [], _, order, delayed => (order, delayed)
  | fuel + 1, node :: queue, deg, order, delayed =>
    if delayedB ops g node then
      sortLoop ops g fuel queue deg order (delayed ++ [node])
    else
      let st := g.connections.foldl (relaxStep node) (deg, queue)
      sortLoop ops g fuel st.2 st.1 (order ++ [node]) delayed

/-- `src/graph.rs`: `Graph::calc_processing_order`, parameterized by the
iteration order `π` of the fresh `in_degree` hash map. -/
def Graph.calc_processing_order {N : Type} (ops : NodeOps N) (g : Graph N)
    (π : List Nat) : Except GraphError (List Nat) :=
  let deg := initDegree ops g π
  let queue := (deg.filter (fun p => p.2 == 0)).map (fun p => p.1)
  let res := sortLoop ops g g.nodes.length queue deg [] []
  let order := res.1 ++ res.2
  if order.length ≠ g.nodes.length then .error .CycleWithoutDelay else .ok order

/-- `src/graph.rs`: `Graph::add_connection`.  Returns the new graph state
together with the result (on error the state equals the input graph: the
speculative `push` is reverted with `pop`, modelled by `dropLast`). -/
def Graph.add_connection {N : Type} (ops : NodeOps N) (π : List Nat)
    (g : Graph N) (connection : Connection) :
    Graph N × Except GraphError Connection :=
  match g.validate_connection ops connection with
  | .error e => (g, .error e)
  | .ok connection =>
    if (g.connections.find? (fun c =>
        c.target_node == connection.target_node &&
        c.target_input == connection.target_input)).isSome then
      (g, .error (.InputAlreadyConnected connection.target_node connection.target_input))
    else
      match Graph.calc_processing_order ops
          { g with connections := g.connections ++ [connection] } π with
      | .error e =>
        ({ g with connections := (g.connections ++ [connection]).dropLast }, .error e)
      | .ok order =>
        ({ g with
            connections := g.connections ++ [connection]
            processing_order := order }, .ok connection)

/-- `src/graph.rs`: `Graph::add_node`.  `none` models a panic: either the
`calc_processing_order` `unwrap` (shown unreachable on reachable graphs) or
`u32` overflow of the `next_node_id += 1` counter. -/
def Graph.add_node {N : Type} (ops : NodeOps N) (π : List Nat)
    (g : Graph N) (node : N) : Option (Graph N × Nat) :=
  match Graph.calc_processing_order ops
      { g with nodes := mapInsert g.nodes g.next_node_id node } π with
  | .error _ => none
  | .ok order =>
    if g.next_node_id + 1 < 2 ^ 32 then
      some ({ g with
        nodes := mapInsert g.nodes g.next_node_id node
        processing_order := order
        next_node_id := g.next_node_id + 1 }, g.next_node_id)
    else
      none

/-- `src/graph.rs`: `Graph::remove_connection` (`retain` keeps non-matching
connections); `none` models the `unwrap` panic on the recomputation. -/
def Graph.remove_connection {N : Type} (ops : NodeOps N) (π : List Nat)
    (g : Graph N) (connection : Connection) :
    Option (Graph N × Except GraphError Connection) :=
  if connection ∈ g.connections then
    match Graph.calc_processing_order ops
        { g with connections := g.connections.filter (fun c => c ≠ connection) } π with
    | .error _ => none
    | .ok order =>
      some ({ g with
        connections := g.connections.filter (fun c => c ≠ connection)
        processing_order := order }, .ok connection)
  else
    some (g, .error (.ConnectionNotExists connection))

/-- `src/graph.rs`: `Graph::remove_node`: remove the node, keep only the
connections that still validate against the shrunken node map, recompute the
order (`none` models the `unwrap` panic), and return the removed node. -/
def Graph.remove_node {N : Type} (ops : NodeOps N) (π : List Nat)
    (g : Graph N) (id : Nat) : Option (Graph N × Except GraphError N) :=
  match mapGet g.nodes id with
  | none => some (g, .error (.NodeNotExists id))
  | some node =>
    match Graph.calc_processing_order ops
        { g with
          nodes := mapRemove g.nodes id
          connections := g.connections.filter (fun c =>
            (Graph.validate_connection ops
              { g with nodes := mapRemove g.nodes id } c).toBool) } π with
    | .error _ => none
    | .ok order =>
      some ({ g with
        nodes := mapRemove g.nodes id
        connections := g.connections.filter (fun c =>
          (Graph.validate_connection ops
            { g with nodes := mapRemove g.nodes id } c).toBool)
        processing_order := order }, .ok node)

/-- `src/graph.rs`: `Graph::process`: for each node in cached order, copy
every upstream output into the matching input, then run the node. -/
def Graph.process {N : Type} (ops : NodeOps N) (g : Graph N) : Graph N :=
  let run := fun (nodes : List (Nat × N)) (node : Nat) =>
    let nodes := g.connections.foldl
      (fun nodes c =>
        if c.target_node = node then
          let value := ((mapGet nodes c.source_node).map
            (fun n => ops.get_output n c.source_output)).getD 0
          mapUpdate nodes c.target_node (fun n => ops.set_input n c.target_input value)
        else nodes)
      nodes
    mapUpdate nodes node ops.process
  { g with nodes := g.processing_order.foldl run g.nodes }

/-! ### Concrete node kinds (`src/nodes/`)

`Variable` holds one value; `Addition` sums two inputs into one output;
`Delay` latches its input into its output one `process` call later. -/

/-- The three concrete node kinds shipped with the library. -/
inductive NodeImpl where
  | Variable (value : ℚ)
  | Addition (summands : ℚ × ℚ) (sum : ℚ)
  | Delay (value : ℚ × ℚ)
deriving DecidableEq, Repr

/-- `nodes::Variable::new`. -/
def NodeImpl.newVariable (value : ℚ) : NodeImpl := .Variable value

/-- `nodes::Addition::new`. -/
def NodeImpl.newAddition : NodeImpl := .Addition (0, 0) 0

/-- `nodes::Delay::new`. -/
def NodeImpl.newDelay : NodeImpl := .Delay (0, 0)

/-- The `Node` trait implementations of the three node kinds.  The `match`
arms follow the Rust sources; the unreachable arms of `get_output`/`set_input`
(a port id the node never declared) panic in Rust and are defaulted here —
the graph only invokes them on validated connections. -/
def nodeImplOps : NodeOps NodeImpl where
  delayed_processing := fun n =>
    match n with
    | .Variable _ => false
    | .Addition _ _ => false
    | .Delay _ => true
  get_output := fun n id =>
    match n, id with
    | .Variable value, 0 => value
    | .Addition _ sum, 0 => sum
    | .Delay value, 0 => value.2
    | _, _ => 0
  list_inputs := fun n =>
    match n with
    | .Variable _ => [0]
    | .Addition _ _ => [0, 1]
    | .Delay _ => [0]
  list_outputs := fun _ => [0]
  process := fun n =>
    match n with
    | .Variable value => .Variable value
    | .Addition summands _ => .Addition summands (summands.1 + summands.2)
    | .Delay value => .Delay (value.1, value.1)
  set_input := fun n id v =>
    match n, id with
    | .Variable _, 0 => .Variable v
    | .Addition summands sum, 0 => .Addition (v, summands.2) sum
    | .Addition summands sum, 1 => .Addition (summands.1, v) sum
    | .Delay value, 0 => .Delay (v, value.2)
    | n, _ => n

/-! ### Specification-side notions

The dependency relation used by the ordering algorithm: an edge constrains
only when its source node does not introduce delay.  A "cycle without delay"
is a nonempty cyclic chain of connections all of whose nodes are
non-delaying. -/

/-- Some connection goes from `s` to `t`. -/
def HasEdge {N : Type} (g : Graph N) (s t : Nat) : Prop :=
  ∃ c ∈ g.connections, c.source_node = s ∧ c.target_node = t

/-- `l` is a directed dependency cycle none of whose nodes introduces delay:
consecutive elements are connected, and the last connects back to the
first. -/
def IsUndelayedCycle {N : Type} (ops : NodeOps N) (g : Graph N) : List Nat → Prop
  | [] => False
  | h :: t =>
    (∀ n ∈ h :: t, delayedB ops g n = false) ∧ List.Chain (HasEdge g) h (t ++ [h])

/-- The in-degree (with edge multiplicity) of `t` under the reduced
dependency relation, ignoring edges whose source has already been emitted
into `done`: this is the value the algorithm's `in_degree` entry of a live
`t` holds once all nodes of `done` have been dequeued. -/
def degSpec {N : Type} (ops : NodeOps N) (g : Graph N) (done : List Nat)
    (t : Nat) : Nat :=
  g.connections.countP
    (fun c => c.target_node == t && !delayedB ops g c.source_node &&
      !done.contains c.source_node)

/-- The assumptions on a graph state under which `calc_processing_order` is
analyzed: the node map is a real map (unique keys) and every connection's
endpoints are live.  Every state reachable through the public API satisfies
this. -/
structure CalcValid {N : Type} (ops : NodeOps N) (g : Graph N) : Prop where
  keys_nodup : (mapKeys g.nodes).Nodup
  conn_source : ∀ c ∈ g.connections, c.source_node ∈ mapKeys g.nodes
  conn_target : ∀ c ∈ g.connections, c.target_node ∈ mapKeys g.nodes

/-! ### Derived definitions: loop state, invariants, reachability, and
concrete states used later as witnesses -/

/-- Number of connections from `node` to `t`. -/
def outCnt {N : Type} (g : Graph N) (node t : Nat) : Nat :=
  g.connections.countP (fun c => c.source_node == node && c.target_node == t)

/-- Count of connections from `node` to `t` within `cs`. -/
def cntTo (cs : List Connection) (node t : Nat) : Nat :=
  cs.countP (fun c => c.source_node == node && c.target_node == t)

/-- Invariant of the topological-sort loop state for a valid graph:
the `in_degree` map tracks `degSpec` relative to the emitted `order`, the
scheduled nodes (`order ++ delayed ++ queue`) are distinct live nodes whose
reduced in-degree has bottomed out, every live node with zero reduced
in-degree is scheduled, and the emitted part is topologically consistent. -/
structure LoopInv {N : Type} (ops : NodeOps N) (g : Graph N)
    (queue : List Nat) (deg : List (Nat × Nat)) (order delayed : List Nat) : Prop where
  deg_keys : ∀ t, t ∈ deg.map Prod.fst ↔ t ∈ mapKeys g.nodes
  deg_spec : ∀ t, degGet deg t = degSpec ops g order t
  sched_nodup : (order ++ delayed ++ queue).Nodup
  sched_keys : ∀ t ∈ order ++ delayed ++ queue, t ∈ mapKeys g.nodes
  sched_zero : ∀ t ∈ order ++ delayed ++ queue, degSpec ops g order t = 0
  sched_complete : ∀ t ∈ mapKeys g.nodes, degSpec ops g order t = 0 →
    t ∈ order ++ delayed ++ queue
  topo : ∀ c ∈ g.connections, delayedB ops g c.source_node = false →
    c.target_node ∈ order ++ delayed →
    List.Sublist [c.source_node, c.target_node] (order ++ delayed)
  order_nd : ∀ t ∈ order, delayedB ops g t = false
  delayed_d : ∀ t ∈ delayed, delayedB ops g t = true

/-- What holds of the two lists returned by the topological-sort loop. -/
structure SortResult {N : Type} (ops : NodeOps N) (g : Graph N)
    (order delayed : List Nat) : Prop where
  nodup : (order ++ delayed).Nodup
  keys : ∀ t ∈ order ++ delayed, t ∈ mapKeys g.nodes
  complete : ∀ t ∈ mapKeys g.nodes, degSpec ops g order t = 0 → t ∈ order ++ delayed
  topo : ∀ c ∈ g.connections, delayedB ops g c.source_node = false →
    c.target_node ∈ order ++ delayed →
    List.Sublist [c.source_node, c.target_node] (order ++ delayed)
  order_nd : ∀ t ∈ order, delayedB ops g t = false
  delayed_d : ∀ t ∈ delayed, delayedB ops g t = true

/-- The state computed by the topological-sort loop inside
`calc_processing_order`, with queue-seed order `π`. -/
def calcRun {N : Type} (ops : NodeOps N) (g : Graph N) (π : List Nat) :
    List Nat × List Nat :=
  sortLoop ops g g.nodes.length
    (((initDegree ops g π).filter (fun p => p.2 == 0)).map (fun p => p.1))
    (initDegree ops g π) [] []

/-- Invariant satisfied by every graph state reachable through the public
API: a well-formed node map with fresh id counter, valid and input-unique
connections, and a cached order that is a topologically consistent
permutation of the live node ids. -/
structure Inv {N : Type} (ops : NodeOps N) (g : Graph N) : Prop where
  keys_nodup : (mapKeys g.nodes).Nodup
  conn_valid : ∀ c ∈ g.connections, g.validate_connection ops c = .ok c
  unique_inputs : g.connections.Pairwise
    (fun c d => c.target_node ≠ d.target_node ∨ c.target_input ≠ d.target_input)
  fresh : ∀ k ∈ mapKeys g.nodes, k < g.next_node_id
  order_perm : g.processing_order.Perm (mapKeys g.nodes)
  order_topo : ∀ c ∈ g.connections, delayedB ops g c.source_node = false →
    List.Sublist [c.source_node, c.target_node] g.processing_order
  order_split : ∀ a b, a ∈ g.processing_order → b ∈ g.processing_order →
    delayedB ops g a = false → delayedB ops g b = true →
    List.Sublist [a, b] g.processing_order

/-- The intermediate state of `remove_node`: node removed, dangling
connections filtered out, order not yet recomputed. -/
def removeNodeBase {N : Type} (ops : NodeOps N) (g : Graph N) (id : Nat) : Graph N :=
  { g with
    nodes := mapRemove g.nodes id
    connections := g.connections.filter (fun c =>
      (Graph.validate_connection ops { g with nodes := mapRemove g.nodes id } c).toBool) }

/-- The `Node` contract: a node's declared ports and its delay flag are
fixed over its lifetime — `set_input` and `process` may change only stored
values.  The three shipped node kinds satisfy it (`nodeImplOps_wf`). -/
structure OpsWF {N : Type} (ops : NodeOps N) : Prop where
  delayed_set : ∀ n i v,
    ops.delayed_processing (ops.set_input n i v) = ops.delayed_processing n
  delayed_process : ∀ n,
    ops.delayed_processing (ops.process n) = ops.delayed_processing n
  inputs_set : ∀ n i v, ops.list_inputs (ops.set_input n i v) = ops.list_inputs n
  inputs_process : ∀ n, ops.list_inputs (ops.process n) = ops.list_inputs n
  outputs_set : ∀ n i v, ops.list_outputs (ops.set_input n i v) = ops.list_outputs n
  outputs_process : ∀ n, ops.list_outputs (ops.process n) = ops.list_outputs n

/-- Two node states with the same delay flag and the same port lists. -/
def ShapeEq {N : Type} (ops : NodeOps N) (n n' : N) : Prop :=
  ops.delayed_processing n' = ops.delayed_processing n ∧
  ops.list_inputs n' = ops.list_inputs n ∧
  ops.list_outputs n' = ops.list_outputs n

/-- Two node maps with the same keys whose entries agree in shape. -/
structure SameShape {N : Type} (ops : NodeOps N) (m m' : List (Nat × N)) : Prop where
  keys : mapKeys m' = mapKeys m
  shape : ∀ k n n', mapGet m k = some n → mapGet m' k = some n' → ShapeEq ops n n'

inductive ReachableTr {N : Type} (ops : NodeOps N) : Graph N → List Nat → Prop where
  | new : ReachableTr ops Graph.new []
  | add_node {g : Graph N} {as : List Nat} (π : List Nat) (n : N)
      {g' : Graph N} {id : Nat} :
      ReachableTr ops g as →
      π.Perm (mapKeys (mapInsert g.nodes g.next_node_id n)) →
      g.add_node ops π n = some (g', id) →
      ReachableTr ops g' (as ++ [id])
  | add_connection {g : Graph N} {as : List Nat} (π : List Nat) (c : Connection)
      {g' : Graph N} {r : Except GraphError Connection} :
      ReachableTr ops g as →
      π.Perm (mapKeys g.nodes) →
      g.add_connection ops π c = (g', r) →
      ReachableTr ops g' as
  | remove_connection {g : Graph N} {as : List Nat} (π : List Nat) (c : Connection)
      {g' : Graph N} {r : Except GraphError Connection} :
      ReachableTr ops g as →
      π.Perm (mapKeys g.nodes) →
      g.remove_connection ops π c = some (g', r) →
      ReachableTr ops g' as
  | remove_node {g : Graph N} {as : List Nat} (π : List Nat) (id : Nat)
      {g' : Graph N} {r : Except GraphError N} :
      ReachableTr ops g as →
      π.Perm (mapKeys (mapRemove g.nodes id)) →
      g.remove_node ops π id = some (g', r) →
      ReachableTr ops g' as
  | process {g : Graph N} {as : List Nat} :
      ReachableTr ops g as → ReachableTr ops (g.process ops) as

/-- A graph state reachable through the public operations. -/
def Reachable {N : Type} (ops : NodeOps N) (g : Graph N) : Prop :=
  ∃ as, ReachableTr ops g as

/-- State after `add_node(Variable::new(1.0))`. -/
def fbG1 : Graph NodeImpl :=
  { connections := [], next_node_id := 1, nodes := [(0, .Variable 1)],
    processing_order := [0] }

/-- State after additionally `add_node(Addition::new())`. -/
def fbG2 : Graph NodeImpl :=
  { connections := [], next_node_id := 2,
    nodes := [(0, .Variable 1), (1, .Addition (0, 0) 0)],
    processing_order := [0, 1] }

/-- State after additionally `add_node(Delay::new())`. -/
def fbG3 : Graph NodeImpl :=
  { connections := [], next_node_id := 3,
    nodes := [(0, .Variable 1), (1, .Addition (0, 0) 0), (2, .Delay (0, 0))],
    processing_order := [0, 1, 2] }

/-- Variable 0 output → sum node 1 input 0. -/
def fbC1 : Connection := Connection.new 0 0 1 0

/-- Sum node 1 output → delay node 2 input. -/
def fbC2 : Connection := Connection.new 1 0 2 0

/-- Delay node 2 output → sum node 1 input 1 (the feedback edge). -/
def fbC3 : Connection := Connection.new 2 0 1 1

def fbG4 : Graph NodeImpl := { fbG3 with connections := [fbC1] }

def fbG5 : Graph NodeImpl := { fbG3 with connections := [fbC1, fbC2] }

/-- The feedback graph of the claim: Variable(1.0) → sum D, D → delay E,
E → D's second input; cached order `[0, 1, 2]`. -/
def feedbackGraph : Graph NodeImpl := { fbG3 with connections := [fbC1, fbC2, fbC3] }

/-- Two isolated variable nodes (no connections). -/
def twoVarBase : Graph NodeImpl :=
  { connections := [], next_node_id := 2,
    nodes := [(0, .Variable 1), (1, .Variable 2)],
    processing_order := [0, 1] }

/-- Two variable nodes with the single connection 0 → 1 (input 0). -/
def twoVarGraph : Graph NodeImpl :=
  { twoVarBase with connections := [Connection.new 0 0 1 0] }

/-! ### Association-list lemmas -/

theorem mapGet_cons {N : Type} (p : Nat × N) (m : List (Nat × N)) (k : Nat) :
    mapGet (p :: m) k = if p.1 = k then some p.2 else mapGet m k := rfl

theorem mapKeys_cons {N : Type} (p : Nat × N) (m : List (Nat × N)) :
    mapKeys (p :: m) = p.1 :: mapKeys m := rfl

theorem mapKeys_append {N : Type} (m m' : List (Nat × N)) :
    mapKeys (m ++ m') = mapKeys m ++ mapKeys m' := by
  simp [mapKeys]

theorem mem_mapKeys {N : Type} (m : List (Nat × N)) (k : Nat) :
    k ∈ mapKeys m ↔ ∃ v, (k, v) ∈ m := by
  induction m with
  | nil => simp [mapKeys]
  | cons p m ih =>
    obtain ⟨a, b⟩ := p
    simp only [mapKeys_cons, List.mem_cons]
    constructor
    · rintro (h | h)
      · exact ⟨b, Or.inl (by simp [h])⟩
      · obtain ⟨v, hv⟩ := ih.mp h
        exact ⟨v, Or.inr hv⟩
    · rintro ⟨v, h | h⟩
      · cases h; exact Or.inl rfl
      · exact Or.inr (ih.mpr ⟨v, h⟩)

theorem mapGet_eq_none_iff {N : Type} (m : List (Nat × N)) (k : Nat) :
    mapGet m k = none ↔ k ∉ mapKeys m := by
  induction m with
  | nil => simp [mapGet, mapKeys]
  | cons p m ih =>
    rw [mapGet_cons, mapKeys_cons]
    by_cases h : p.1 = k
    · simp [h]
    · rw [if_neg h, ih]
      simp only [List.mem_cons]
      constructor
      · intro hk
        rintro (he | he)
        · exact h he.symm
        · exact hk he
      · intro hk he
        exact hk (Or.inr he)

theorem mapGet_isSome_iff {N : Type} (m : List (Nat × N)) (k : Nat) :
    (mapGet m k).isSome = true ↔ k ∈ mapKeys m := by
  have h := mapGet_eq_none_iff m k
  cases hg : mapGet m k
  · simpa [hg] using h
  · simp only [hg, Option.isSome_some, true_iff]
    by_contra hk
    rw [((h.mpr hk) : mapGet m k = none)] at hg
    cases hg

theorem mapGet_mem {N : Type} {m : List (Nat × N)} {k : Nat} {v : N}
    (h : mapGet m k = some v) : (k, v) ∈ m := by
  induction m with
  | nil => cases h
  | cons p m ih =>
    rw [mapGet_cons] at h
    by_cases hp : p.1 = k
    · rw [if_pos hp] at h
      injection h with h
      obtain ⟨a, b⟩ := p
      simp only at hp h
      subst hp; subst h
      exact List.mem_cons_self _ _
    · rw [if_neg hp] at h
      exact List.mem_cons_of_mem _ (ih h)

theorem mapGet_of_mem_nodup {N : Type} {m : List (Nat × N)} {k : Nat} {v : N}
    (hnd : (mapKeys m).Nodup) (h : (k, v) ∈ m) : mapGet m k = some v := by
  induction m with
  | nil => simp at h
  | cons p m ih =>
    rw [mapKeys_cons, List.nodup_cons] at hnd
    rw [mapGet_cons]
    rcases List.mem_cons.mp h with h | h
    · cases h
      simp
    · have hk : k ∈ mapKeys m := (mem_mapKeys m k).mpr ⟨v, h⟩
      have hne : p.1 ≠ k := fun he => hnd.1 (he ▸ hk)
      rw [if_neg hne]
      exact ih hnd.2 h

theorem mapKeys_update {N : Type} (m : List (Nat × N)) (k : Nat) (f : N → N) :
    mapKeys (mapUpdate m k f) = mapKeys m := by
  induction m with
  | nil => rfl
  | cons p m ih =>
    rw [mapUpdate, List.map_cons, ← mapUpdate, mapKeys_cons, mapKeys_cons, ih]
    by_cases h : p.1 = k
    · simp [h]
    · simp [h]

theorem mapKeys_insert_mem {N : Type} (m : List (Nat × N)) (k : Nat) (v : N)
    (h : k ∈ mapKeys m) : mapKeys (mapInsert m k v) = mapKeys m := by
  have hany : m.any (fun p => p.1 == k) = true := by
    obtain ⟨w, hw⟩ := (mem_mapKeys m k).mp h
    exact List.any_eq_true.mpr ⟨(k, w), hw, by simp⟩
  rw [mapInsert, if_pos hany]
  clear h hany
  induction m with
  | nil => rfl
  | cons p m ih =>
    rw [List.map_cons, mapKeys_cons, mapKeys_cons, ih]
    by_cases hp : p.1 = k
    · simp [hp]
    · simp [hp]

theorem mapKeys_insert_not_mem {N : Type} (m : List (Nat × N)) (k : Nat) (v : N)
    (h : k ∉ mapKeys m) : mapKeys (mapInsert m k v) = mapKeys m ++ [k] := by
  have hany : m.any (fun p => p.1 == k) = false := by
    rw [List.any_eq_false]
    rintro ⟨a, b⟩ hab
    simp only [beq_iff_eq]
    intro he
    exact h ((mem_mapKeys m k).mpr ⟨b, he ▸ hab⟩)
  rw [mapInsert, hany]
  simp [mapKeys_append, mapKeys]

theorem mapGet_insert_not_mem {N : Type} (m : List (Nat × N)) (k j : Nat) (v : N)
    (h : k ∉ mapKeys m) :
    mapGet (mapInsert m k v) j = if j = k then some v else mapGet m j := by
  have hany : m.any (fun p => p.1 == k) = false := by
    rw [List.any_eq_false]
    rintro ⟨a, b⟩ hab
    simp only [beq_iff_eq]
    intro he
    exact h ((mem_mapKeys m k).mpr ⟨b, he ▸ hab⟩)
  rw [mapInsert, hany]
  simp only [Bool.false_eq_true, if_false]
  induction m with
  | nil =>
    rw [List.nil_append, mapGet_cons]
    by_cases hj : j = k
    · simp [hj]
    · rw [if_neg (show ¬ (k, v).1 = j from fun he => hj he.symm), if_neg hj]
  | cons p m ih =>
    rw [List.cons_append, mapGet_cons, mapGet_cons]
    by_cases hp : p.1 = j
    · have hjk : ¬ j = k := fun he =>
        h (by rw [mapKeys_cons]; exact List.mem_cons.mpr (Or.inl (hp.trans he).symm))
      simp [hp, hjk]
    · rw [if_neg hp, if_neg hp]
      exact ih (fun hm => h (by rw [mapKeys_cons]; exact List.mem_cons_of_mem _ hm))
        (by
          rw [List.any_eq_false]
          rintro ⟨a, b⟩ hab
          simp only [beq_iff_eq]
          intro he
          exact h (by rw [mapKeys_cons]; exact List.mem_cons_of_mem _ ((mem_mapKeys m k).mpr ⟨b, he ▸ hab⟩)))

theorem mapKeys_remove {N : Type} (m : List (Nat × N)) (k : Nat) :
    mapKeys (mapRemove m k) = (mapKeys m).filter (fun a => a ≠ k) := by
  induction m with
  | nil => rfl
  | cons p m ih =>
    by_cases h : p.1 = k
    · rw [mapRemove, List.filter_cons_of_neg (by simpa using h), mapKeys_cons,
        List.filter_cons_of_neg (by simpa using h), ← mapRemove, ih]
    · rw [mapRemove, List.filter_cons_of_pos (by simpa using h), mapKeys_cons,
        mapKeys_cons, List.filter_cons_of_pos (by simpa using h), ← mapRemove, ih]

theorem mapGet_remove {N : Type} (m : List (Nat × N)) (k j : Nat) :
    mapGet (mapRemove m k) j = if j = k then none else mapGet m j := by
  induction m with
  | nil => simp [mapRemove, mapGet]
  | cons p m ih =>
    by_cases hp : p.1 = k
    · rw [mapRemove, List.filter_cons_of_neg (by simpa using hp), ← mapRemove, ih]
      by_cases hj : j = k
      · simp [hj]
      · have hne : p.1 ≠ j := by rw [hp]; exact fun he => hj he.symm
        rw [mapGet_cons, if_neg hne]
    · rw [mapRemove, List.filter_cons_of_pos (by simpa using hp), ← mapRemove,
        mapGet_cons, mapGet_cons, ih]
      by_cases hpj : p.1 = j
      · have hj : ¬ j = k := by rw [← hpj]; exact hp
        simp [hpj, hj]
      · rw [if_neg hpj, if_neg hpj]

theorem mapGet_update {N : Type} (m : List (Nat × N)) (k j : Nat) (f : N → N) :
    mapGet (mapUpdate m k f) j =
      if j = k then (mapGet m j).map f else mapGet m j := by
  induction m with
  | nil => by_cases hj : j = k <;> simp [mapUpdate, mapGet, hj]
  | cons p m ih =>
    rw [mapUpdate, List.map_cons, ← mapUpdate, mapGet_cons, mapGet_cons]
    by_cases hp : p.1 = k
    · by_cases hpj : p.1 = j
      · have hj : j = k := by rw [← hpj, hp]
        simp [hp, hpj, hj]
      · have hkj : ¬ k = j := fun he => hpj (hp.trans he)
        have hjk : ¬ j = k := fun he => hkj he.symm
        simp [hp, hkj, hjk, ih]
    · simp only [hp, if_false]
      by_cases hpj : p.1 = j
      · have hj : ¬ j = k := fun he => hp (hpj.trans he)
        simp [hpj, hj]
      · rw [if_neg hpj, if_neg hpj, ih]

/-! ### In-degree map lemmas -/

theorem degGet_cons (p : Nat × Nat) (d : List (Nat × Nat)) (k : Nat) :
    degGet (p :: d) k = if p.1 = k then p.2 else degGet d k := rfl

theorem contains_eq_false_iff (l : List Nat) (a : Nat) :
    l.contains a = false ↔ a ∉ l := by
  induction l with
  | nil => simp
  | cons b l ih =>
    by_cases h : a = b
    · simp [h]
    · simp [List.contains_cons, h, ih, fun he : b = a => h he.symm]

theorem contains_eq_true_iff (l : List Nat) (a : Nat) :
    l.contains a = true ↔ a ∈ l := by
  cases hc : l.contains a
  · simp only [Bool.false_eq_true, false_iff]
    exact (contains_eq_false_iff l a).mp hc
  · simp only [true_iff]
    by_contra hm
    rw [(contains_eq_false_iff l a).mpr hm] at hc
    cases hc

theorem degKeys_incr (d : List (Nat × Nat)) (k : Nat) :
    (degIncr d k).map Prod.fst = d.map Prod.fst := by
  induction d with
  | nil => rfl
  | cons p d ih =>
    rw [degIncr, List.map_cons, ← degIncr, List.map_cons, List.map_cons, ih]
    by_cases h : p.1 = k <;> simp [h]

theorem degKeys_decr (d : List (Nat × Nat)) (k : Nat) :
    (degDecr d k).map Prod.fst = d.map Prod.fst := by
  induction d with
  | nil => rfl
  | cons p d ih =>
    rw [degDecr, List.map_cons, ← degDecr, List.map_cons, List.map_cons, ih]
    by_cases h : p.1 = k <;> simp [h]

theorem degGet_incr_self (d : List (Nat × Nat)) (k : Nat)
    (h : k ∈ d.map Prod.fst) : degGet (degIncr d k) k = degGet d k + 1 := by
  induction d with
  | nil => simp at h
  | cons p d ih =>
    rw [degIncr, List.map_cons, ← degIncr]
    by_cases hp : p.1 = k
    · simp [degGet, hp]
    · rw [List.map_cons, List.mem_cons] at h
      rcases h with h | h
      · exact absurd h.symm hp
      · simp only [hp, if_false]
        rw [degGet, degGet, if_neg hp, if_neg hp]
        exact ih h

theorem degGet_incr_ne (d : List (Nat × Nat)) (k j : Nat) (h : j ≠ k) :
    degGet (degIncr d k) j = degGet d j := by
  induction d with
  | nil => rfl
  | cons p d ih =>
    rw [degIncr, List.map_cons, ← degIncr]
    by_cases hp : p.1 = k
    · have hpj : ¬ p.1 = j := fun he => h (he.symm.trans hp)
      rw [if_pos hp, degGet_cons, degGet_cons,
        if_neg (show ¬ (p.1, p.2 + 1).1 = j from hpj), if_neg hpj, ih]
    · rw [if_neg hp, degGet_cons, degGet_cons, ih]

theorem degIncr_not_mem (d : List (Nat × Nat)) (k : Nat)
    (h : k ∉ d.map Prod.fst) : degIncr d k = d := by
  induction d with
  | nil => rfl
  | cons p d ih =>
    rw [List.map_cons, List.mem_cons] at h
    push_neg at h
    rw [degIncr, List.map_cons, ← degIncr, if_neg (fun he => h.1 he.symm), ih h.2]

theorem degGet_decr_self (d : List (Nat × Nat)) (k : Nat)
    (h : k ∈ d.map Prod.fst) : degGet (degDecr d k) k = degGet d k - 1 := by
  induction d with
  | nil => simp at h
  | cons p d ih =>
    rw [degDecr, List.map_cons, ← degDecr]
    by_cases hp : p.1 = k
    · simp [degGet, hp]
    · rw [List.map_cons, List.mem_cons] at h
      rcases h with h | h
      · exact absurd h.symm hp
      · simp only [hp, if_false]
        rw [degGet, degGet, if_neg hp, if_neg hp]
        exact ih h

theorem degGet_decr_ne (d : List (Nat × Nat)) (k j : Nat) (h : j ≠ k) :
    degGet (degDecr d k) j = degGet d j := by
  induction d with
  | nil => rfl
  | cons p d ih =>
    rw [degDecr, List.map_cons, ← degDecr]
    by_cases hp : p.1 = k
    · have hpj : ¬ p.1 = j := fun he => h (he.symm.trans hp)
      rw [if_pos hp, degGet_cons, degGet_cons,
        if_neg (show ¬ (p.1, p.2 - 1).1 = j from hpj), if_neg hpj, ih]
    · rw [if_neg hp, degGet_cons, degGet_cons, ih]

theorem degGet_init (π : List Nat) (k : Nat) :
    degGet (π.map (fun k => (k, 0))) k = 0 := by
  induction π with
  | nil => rfl
  | cons a π ih =>
    rw [List.map_cons, degGet]
    by_cases h : a = k <;> simp [h, ih]

theorem degKeys_init (π : List Nat) :
    (π.map (fun k => (k, (0 : Nat)))).map Prod.fst = π := by
  induction π with
  | nil => rfl
  | cons a π ih => simp [ih]

theorem degGet_not_mem (d : List (Nat × Nat)) (k : Nat)
    (h : k ∉ d.map Prod.fst) : degGet d k = 0 := by
  induction d with
  | nil => rfl
  | cons p d ih =>
    rw [List.map_cons, List.mem_cons] at h
    push_neg at h
    rw [degGet, if_neg (fun he => h.1 he.symm)]
    exact ih h.2

/-! ### `degSpec` lemmas -/

theorem countP_split {α : Type} (l : List α) (p q : α → Bool) :
    l.countP p = l.countP (fun a => p a && q a) + l.countP (fun a => p a && !q a) := by
  induction l with
  | nil => rfl
  | cons a l ih =>
    rw [List.countP_cons, List.countP_cons, List.countP_cons, ih]
    cases hp : p a <;> cases hq : q a <;> simp [hp, hq] <;> omega

theorem degSpec_le_of_subset {N : Type} (ops : NodeOps N) (g : Graph N)
    {done done' : List Nat} (h : ∀ s ∈ done, s ∈ done') (t : Nat) :
    degSpec ops g done' t ≤ degSpec ops g done t := by
  apply List.countP_mono_left
  intro c _
  simp only [Bool.and_eq_true, beq_iff_eq, Bool.not_eq_true']
  rintro ⟨⟨h1, h2⟩, h3⟩
  refine ⟨⟨h1, h2⟩, ?_⟩
  rw [contains_eq_false_iff] at h3 ⊢
  exact fun hc => h3 (h _ hc)

theorem degSpec_zero_of_subset {N : Type} (ops : NodeOps N) (g : Graph N)
    {done done' : List Nat} (h : ∀ s ∈ done, s ∈ done') (t : Nat)
    (h0 : degSpec ops g done t = 0) : degSpec ops g done' t = 0 :=
  Nat.le_zero.mp (h0 ▸ degSpec_le_of_subset ops g h t)

/-- Emitting one more non-delaying `node` into `done` lowers the reduced
in-degree of `t` by exactly the number of connections from `node` to `t`. -/
theorem degSpec_append_single {N : Type} (ops : NodeOps N) (g : Graph N)
    (done : List Nat) (node t : Nat) (hnd : node ∉ done) :
    degSpec ops g done t =
      degSpec ops g (done ++ [node]) t +
        (if delayedB ops g node then 0 else outCnt g node t) := by
  by_cases hdel : delayedB ops g node
  · simp only [hdel, if_true, Nat.add_zero]
    unfold degSpec
    apply List.countP_congr
    intro c _
    simp only [Bool.and_eq_true, beq_iff_eq, Bool.not_eq_true', contains_eq_false_iff,
      List.mem_append, List.mem_singleton]
    constructor
    · rintro ⟨⟨h1, h2⟩, h3⟩
      refine ⟨⟨h1, h2⟩, ?_⟩
      rintro (hc | hc)
      · exact h3 hc
      · rw [hc, hdel] at h2; cases h2
    · rintro ⟨⟨h1, h2⟩, h3⟩
      exact ⟨⟨h1, h2⟩, fun hc => h3 (Or.inl hc)⟩
  · simp only [hdel, if_false]
    unfold degSpec
    rw [countP_split (g.connections)
      (fun c => c.target_node == t && !delayedB ops g c.source_node &&
        !done.contains c.source_node)
      (fun c => !(c.source_node == node))]
    congr 1
    · apply List.countP_congr
      intro c _
      simp only [Bool.and_eq_true, beq_iff_eq, Bool.not_eq_true', contains_eq_false_iff,
        List.mem_append, List.mem_singleton, beq_eq_false_iff_ne]
      tauto
    · unfold outCnt
      apply List.countP_congr
      intro c _
      simp only [Bool.and_eq_true, beq_iff_eq, Bool.not_eq_true', Bool.not_not,
        contains_eq_false_iff]
      constructor
      · rintro ⟨⟨⟨h1, h2⟩, h3⟩, h4⟩
        exact ⟨h4, h1⟩
      · rintro ⟨hs, ht⟩
        exact ⟨⟨⟨ht, by rw [hs]; exact Bool.eq_false_iff.mpr hdel⟩,
          by rw [hs]; exact hnd⟩, hs⟩

/-! ### The relaxation fold of the topological sort -/

theorem outCnt_eq_cntTo {N : Type} (g : Graph N) (node t : Nat) :
    outCnt g node t = cntTo g.connections node t := rfl

theorem cntTo_nil (node t : Nat) : cntTo [] node t = 0 := rfl

theorem cntTo_cons (c : Connection) (cs : List Connection) (node t : Nat) :
    cntTo (c :: cs) node t =
      cntTo cs node t + (if c.source_node = node ∧ c.target_node = t then 1 else 0) := by
  rw [cntTo, List.countP_cons, cntTo]
  by_cases h : c.source_node = node ∧ c.target_node = t
  · simp [h.1, h.2]
  · rw [if_neg h, if_neg]
    simp only [Bool.and_eq_true, beq_iff_eq]
    exact h

/-- If the reduced in-degree of `t` relative to `done` is zero, then the
source of every constraining connection into `t` lies in `done`. -/
theorem degSpec_zero_source_mem {N : Type} (ops : NodeOps N) (g : Graph N)
    {done : List Nat} {t : Nat} (h0 : degSpec ops g done t = 0) :
    ∀ c ∈ g.connections, c.target_node = t → delayedB ops g c.source_node = false →
      c.source_node ∈ done := by
  intro c hc ht hd
  have := List.countP_eq_zero.mp h0 c hc
  simp only [Bool.and_eq_true, beq_iff_eq, Bool.not_eq_true', contains_eq_false_iff,
    not_and] at this
  by_contra hmem
  exact this ⟨ht, hd⟩ hmem

/-- Behaviour of the inner `for connection in connections` fold that follows
the dequeue of the non-delaying `node`: in-degrees drop by the number of
already-folded connections out of `node`, and targets are pushed exactly when
their in-degree bottoms out. `f t` abstracts the decrements already applied
before the fold starts. -/
theorem relax_fold {N : Type} (ops : NodeOps N) (g : Graph N)
    (hv : CalcValid ops g) (node : Nat) (order rest : List Nat)
    (hrest0 : ∀ t ∈ rest, degSpec ops g order t = 0) :
    ∀ (cs : List Connection) (deg : List (Nat × Nat)) (q : List Nat) (f : Nat → Nat),
      (∀ c ∈ cs, c ∈ g.connections) →
      (∀ t, t ∈ deg.map Prod.fst ↔ t ∈ mapKeys g.nodes) →
      (∀ t, degGet deg t + f t = degSpec ops g order t) →
      (∀ t, f t + cntTo cs node t ≤ degSpec ops g order t) →
      q.Nodup →
      (∀ t, t ∈ q ↔ t ∈ rest ∨
        (1 ≤ degSpec ops g order t ∧ f t = degSpec ops g order t)) →
      (∀ t, t ∈ (cs.foldl (relaxStep node) (deg, q)).1.map Prod.fst ↔
        t ∈ mapKeys g.nodes) ∧
      (∀ t, degGet (cs.foldl (relaxStep node) (deg, q)).1 t +
        (f t + cntTo cs node t) = degSpec ops g order t) ∧
      (cs.foldl (relaxStep node) (deg, q)).2.Nodup ∧
      (∀ t, t ∈ (cs.foldl (relaxStep node) (deg, q)).2 ↔ t ∈ rest ∨
        (1 ≤ degSpec ops g order t ∧
          f t + cntTo cs node t = degSpec ops g order t)) := by
  intro cs
  induction cs with
  | nil =>
    intro deg q f _ hkeys hdeg htot hqnd hq
    refine ⟨hkeys, ?_, hqnd, ?_⟩
    · intro t
      rw [cntTo_nil, Nat.add_zero]
      exact hdeg t
    · intro t
      rw [cntTo_nil, Nat.add_zero]
      exact hq t
  | cons c cs ih =>
    intro deg q f hcs hkeys hdeg htot hqnd hq
    rw [List.foldl_cons]
    by_cases hsrc : c.source_node = node
    · have hc : c ∈ g.connections := hcs c (List.mem_cons_self _ _)
      have ht0keys : c.target_node ∈ mapKeys g.nodes := hv.conn_target c hc
      have ht0deg : c.target_node ∈ deg.map Prod.fst := (hkeys _).mpr ht0keys
      have hcnt_cons : cntTo (c :: cs) node c.target_node =
          cntTo cs node c.target_node + 1 := by
        rw [cntTo_cons, if_pos ⟨hsrc, rfl⟩]
      have hge1 : 1 ≤ degGet deg c.target_node := by
        have h1 := htot c.target_node
        have h2 := hdeg c.target_node
        rw [hcnt_cons] at h1
        omega
      have hdecr : degGet (degDecr deg c.target_node) c.target_node =
          degGet deg c.target_node - 1 := degGet_decr_self _ _ ht0deg
      have hkeys' : ∀ t, t ∈ (degDecr deg c.target_node).map Prod.fst ↔
          t ∈ mapKeys g.nodes := by
        intro t
        rw [degKeys_decr]
        exact hkeys t
      have hstep : relaxStep node (deg, q) c =
          (degDecr deg c.target_node,
            if degGet (degDecr deg c.target_node) c.target_node = 0 then
              q ++ [c.target_node] else q) := by
        rw [relaxStep, if_pos hsrc]
        by_cases hp : degGet (degDecr deg c.target_node) c.target_node = 0
        · simp [hp]
        · simp [hp]
      set f' : Nat → Nat := fun t => if t = c.target_node then f t + 1 else f t with hf'
      have hf'self : f' c.target_node = f c.target_node + 1 := by
        simp [hf']
      have hf'ne : ∀ u, u ≠ c.target_node → f' u = f u := by
        intro u hu
        simp [hf', hu]
      have hdeg' : ∀ t, degGet (degDecr deg c.target_node) t + f' t =
          degSpec ops g order t := by
        intro t
        by_cases ht : t = c.target_node
        · subst ht
          rw [hdecr, hf'self]
          have := hdeg c.target_node
          omega
        · rw [degGet_decr_ne _ _ _ ht, hf'ne t ht]
          exact hdeg t
      have htot' : ∀ t, f' t + cntTo cs node t ≤ degSpec ops g order t := by
        intro t
        by_cases ht : t = c.target_node
        · subst ht
          have := htot c.target_node
          rw [hcnt_cons] at this
          rw [hf'self]
          omega
        · have := htot t
          rw [cntTo_cons, if_neg (fun hh => ht hh.2.symm)] at this
          rw [hf'ne t ht]
          omega
      have hnotq : degGet (degDecr deg c.target_node) c.target_node = 0 →
          c.target_node ∉ q := by
        intro hp hmem
        rcases (hq _).mp hmem with hr | ⟨_, hfe⟩
        · have h0 := hrest0 _ hr
          have := hdeg c.target_node
          omega
        · have := hdeg c.target_node
          omega
      by_cases hp : degGet (degDecr deg c.target_node) c.target_node = 0
      · rw [hstep, if_pos hp]
        have hqnd' : (q ++ [c.target_node]).Nodup := by
          rw [List.nodup_append]
          refine ⟨hqnd, List.nodup_singleton _, ?_⟩
          intro a ha hb
          rw [List.mem_singleton] at hb
          subst hb
          exact hnotq hp ha
        have hq' : ∀ t, t ∈ q ++ [c.target_node] ↔ t ∈ rest ∨
            (1 ≤ degSpec ops g order t ∧ f' t = degSpec ops g order t) := by
          intro t
          rw [List.mem_append, List.mem_singleton]
          by_cases ht : t = c.target_node
          · subst ht
            have hd := hdeg c.target_node
            constructor
            · intro _
              right
              rw [hf'self]
              omega
            · intro _
              exact Or.inr rfl
          · rw [hf'ne t ht]
            constructor
            · rintro (hh | hh)
              · exact (hq t).mp hh
              · exact absurd hh ht
            · intro hh
              exact Or.inl ((hq t).mpr hh)
        have := ih (degDecr deg c.target_node) (q ++ [c.target_node]) f'
          (fun d hd => hcs d (List.mem_cons_of_mem _ hd)) hkeys' hdeg' htot' hqnd' hq'
        refine ⟨this.1, ?_, this.2.2.1, ?_⟩
        · intro t
          have hrw := this.2.1 t
          by_cases ht : t = c.target_node
          · subst ht
            rw [hf'self] at hrw
            rw [hcnt_cons]
            omega
          · rw [hf'ne t ht] at hrw
            rw [cntTo_cons, if_neg (fun hh => ht hh.2.symm)]
            omega
        · intro t
          have hrw := this.2.2.2 t
          by_cases ht : t = c.target_node
          · subst ht
            rw [hf'self] at hrw
            rw [hcnt_cons]
            constructor
            · intro hh
              rcases hrw.mp hh with hh | ⟨hh1, hh2⟩
              · exact Or.inl hh
              · exact Or.inr ⟨hh1, by omega⟩
            · rintro (hh | ⟨hh1, hh2⟩)
              · exact hrw.mpr (Or.inl hh)
              · exact hrw.mpr (Or.inr ⟨hh1, by omega⟩)
          · rw [hf'ne t ht] at hrw
            rw [cntTo_cons, if_neg (fun hh => ht hh.2.symm)]
            exact hrw
      · rw [hstep, if_neg hp]
        have hq' : ∀ t, t ∈ q ↔ t ∈ rest ∨
            (1 ≤ degSpec ops g order t ∧ f' t = degSpec ops g order t) := by
          intro t
          by_cases ht : t = c.target_node
          · subst ht
            have hd := hdeg c.target_node
            constructor
            · intro hmem
              rcases (hq c.target_node).mp hmem with hr | ⟨_, hfe⟩
              · exact Or.inl hr
              · omega
            · rintro (hr | ⟨hh1, hh2⟩)
              · have h0 := hrest0 _ hr
                omega
              · rw [hf'self] at hh2
                omega
          · rw [hf'ne t ht]
            exact hq t
        have := ih (degDecr deg c.target_node) q f'
          (fun d hd => hcs d (List.mem_cons_of_mem _ hd)) hkeys' hdeg' htot' hqnd hq'
        refine ⟨this.1, ?_, this.2.2.1, ?_⟩
        · intro t
          have hrw := this.2.1 t
          by_cases ht : t = c.target_node
          · subst ht
            rw [hf'self] at hrw
            rw [hcnt_cons]
            omega
          · rw [hf'ne t ht] at hrw
            rw [cntTo_cons, if_neg (fun hh => ht hh.2.symm)]
            omega
        · intro t
          have hrw := this.2.2.2 t
          by_cases ht : t = c.target_node
          · subst ht
            rw [hf'self] at hrw
            rw [hcnt_cons]
            constructor
            · intro hh
              rcases hrw.mp hh with hh | ⟨hh1, hh2⟩
              · exact Or.inl hh
              · exact Or.inr ⟨hh1, by omega⟩
            · rintro (hh | ⟨hh1, hh2⟩)
              · exact hrw.mpr (Or.inl hh)
              · exact hrw.mpr (Or.inr ⟨hh1, by omega⟩)
          · rw [hf'ne t ht] at hrw
            rw [cntTo_cons, if_neg (fun hh => ht hh.2.symm)]
            exact hrw
    · have hstep : relaxStep node (deg, q) c = (deg, q) := by
        rw [relaxStep, if_neg hsrc]
      rw [hstep]
      have hcnt : ∀ t, cntTo (c :: cs) node t = cntTo cs node t := by
        intro t
        rw [cntTo_cons, if_neg (fun hh => hsrc hh.1)]
        omega
      have htot' : ∀ t, f t + cntTo cs node t ≤ degSpec ops g order t := by
        intro t
        have := htot t
        rw [hcnt t] at this
        exact this
      have := ih deg q f (fun d hd => hcs d (List.mem_cons_of_mem _ hd))
        hkeys hdeg htot' hqnd hq
      refine ⟨this.1, ?_, this.2.2.1, ?_⟩
      · intro t
        rw [hcnt t]
        exact this.2.1 t
      · intro t
        rw [hcnt t]
        exact this.2.2.2 t

/-! ### Generic list helpers -/

theorem nodup_length_le (l keys : List Nat) (hnd : l.Nodup)
    (hsub : ∀ t ∈ l, t ∈ keys) : l.length ≤ keys.length :=
  (hnd.subperm (fun _ ht => hsub _ ht)).length_le

theorem sublist_ins_middle {α : Type} {l : List α} (a c b : List α)
    (h : l.Sublist (a ++ b)) : l.Sublist (a ++ (c ++ b)) :=
  h.trans (List.Sublist.append (List.Sublist.refl a) (List.sublist_append_right c b))

theorem indexOf_lt_of_pair_sublist :
    ∀ {L : List Nat} {a b : Nat}, List.Sublist [a, b] L → L.Nodup →
      L.indexOf a < L.indexOf b := by
  intro L
  induction L with
  | nil => intro a b h _; cases h
  | cons x L ih =>
    intro a b h hnd
    rw [List.nodup_cons] at hnd
    cases h with
    | cons _ h' =>
      have ha : a ∈ L := h'.subset (List.mem_cons_self _ _)
      have hb : b ∈ L := h'.subset (List.mem_cons_of_mem _ (List.mem_cons_self _ _))
      have hax : x ≠ a := fun he => hnd.1 (he ▸ ha)
      have hbx : x ≠ b := fun he => hnd.1 (he ▸ hb)
      rw [List.indexOf_cons_ne _ (by simpa using hax), List.indexOf_cons_ne _ (by simpa using hbx)]
      exact Nat.succ_lt_succ (ih h' hnd.2)
    | cons₂ _ h' =>
      have hb : b ∈ L := h'.subset (List.mem_cons_self _ _)
      have hbx : x ≠ b := fun he => hnd.1 (he ▸ hb)
      rw [List.indexOf_cons_self]
      rw [List.indexOf_cons_ne _ (by simpa using hbx)]
      exact Nat.succ_pos _

theorem chain_lt_last (f : Nat → Nat) :
    ∀ (l : List Nat) (a b : Nat), List.Chain (fun x y => f x < f y) a l →
      l.getLast? = some b → f a < f b := by
  intro l
  induction l with
  | nil => intro a b _ hb; cases hb
  | cons x l ih =>
    intro a b h hb
    cases h with
    | cons hax hchain =>
      cases l with
      | nil =>
        injection hb with hb
        exact hb ▸ hax
      | cons y l' =>
        rw [List.getLast?_cons_cons] at hb
        exact hax.trans (ih x b hchain hb)

theorem chain_lt_closed_absurd (f : Nat → Nat) (t : List Nat) (h : Nat)
    (hch : List.Chain (fun x y => f x < f y) h (t ++ [h])) : False := by
  have := chain_lt_last f (t ++ [h]) h h hch (by rw [List.getLast?_concat])
  omega

/-! ### The `sortLoop` invariant -/

theorem final_of_inv {N : Type} {ops : NodeOps N} {g : Graph N}
    {deg : List (Nat × Nat)} {order delayed : List Nat}
    (h : LoopInv ops g [] deg order delayed) :
    SortResult ops g order delayed := by
  have hn := h.sched_nodup
  rw [List.append_nil] at hn
  refine ⟨hn, ?_, ?_, h.topo, h.order_nd, h.delayed_d⟩
  · intro t ht
    exact h.sched_keys t (by rw [List.append_nil]; exact ht)
  · intro t ht h0
    have := h.sched_complete t ht h0
    rw [List.append_nil] at this
    exact this

theorem sortLoop_zero {N : Type} (ops : NodeOps N) (g : Graph N)
    (queue : List Nat) (deg : List (Nat × Nat)) (order delayed : List Nat) :
    sortLoop ops g 0 queue deg order delayed = (order, delayed) := rfl

theorem sortLoop_succ_nil {N : Type} (ops : NodeOps N) (g : Graph N) (fuel : Nat)
    (deg : List (Nat × Nat)) (order delayed : List Nat) :
    sortLoop ops g (fuel + 1) [] deg order delayed = (order, delayed) := rfl

theorem sortLoop_succ_cons {N : Type} (ops : NodeOps N) (g : Graph N)
    (fuel node : Nat) (queue : List Nat) (deg : List (Nat × Nat))
    (order delayed : List Nat) :
    sortLoop ops g (fuel + 1) (node :: queue) deg order delayed =
      if delayedB ops g node then
        sortLoop ops g fuel queue deg order (delayed ++ [node])
      else
        sortLoop ops g fuel (g.connections.foldl (relaxStep node) (deg, queue)).2
          (g.connections.foldl (relaxStep node) (deg, queue)).1
          (order ++ [node]) delayed := by
  rw [sortLoop]

/-- Main loop invariant theorem: starting from an invariant state with
enough fuel, the loop ends in a state satisfying `SortResult`. -/
theorem sortLoop_spec {N : Type} (ops : NodeOps N) (g : Graph N)
    (hv : CalcValid ops g) :
    ∀ (fuel : Nat) (queue : List Nat) (deg : List (Nat × Nat)) (order delayed : List Nat),
      (mapKeys g.nodes).length ≤ fuel + (order ++ delayed).length →
      LoopInv ops g queue deg order delayed →
      SortResult ops g (sortLoop ops g fuel queue deg order delayed).1
        (sortLoop ops g fuel queue deg order delayed).2 := by
  intro fuel
  induction fuel with
  | zero =>
    intro queue deg order delayed hfuel hinv
    have hlen := nodup_length_le (order ++ delayed ++ queue) (mapKeys g.nodes)
      hinv.sched_nodup hinv.sched_keys
    simp only [List.length_append] at hlen hfuel
    have hq : queue = [] := List.length_eq_zero.mp (by omega)
    subst hq
    rw [sortLoop_zero]
    exact final_of_inv hinv
  | succ fuel ih =>
    intro queue deg order delayed hfuel hinv
    cases queue with
    | nil =>
      rw [sortLoop_succ_nil]
      exact final_of_inv hinv
    | cons node rest =>
      rw [sortLoop_succ_cons]
      have hmem3 : ∀ (X : List Nat) (t : Nat),
          t ∈ order ++ delayed ++ X ↔ t ∈ order ∨ t ∈ delayed ∨ t ∈ X := by
        intro X t
        simp [List.mem_append]
      have hmem_node : node ∈ order ++ delayed ++ (node :: rest) :=
        (hmem3 _ node).mpr (Or.inr (Or.inr (List.mem_cons_self _ _)))
      have hnodeK : node ∈ mapKeys g.nodes := hinv.sched_keys node hmem_node
      have hnode0 : degSpec ops g order node = 0 := hinv.sched_zero node hmem_node
      have hnodup := hinv.sched_nodup
      rw [List.nodup_append, List.nodup_append, List.nodup_cons] at hnodup
      obtain ⟨⟨hond, hdnd, hdisjOD⟩, ⟨hnr, hrnd⟩, hdisjBig⟩ := hnodup
      have hno : node ∉ order := fun h =>
        hdisjBig (List.mem_append.mpr (Or.inl h)) (List.mem_cons_self _ _)
      have hndel : node ∉ delayed := fun h =>
        hdisjBig (List.mem_append.mpr (Or.inr h)) (List.mem_cons_self _ _)
      have hdisjD : ∀ a ∈ delayed, a ∉ node :: rest := fun a ha hb =>
        hdisjBig (List.mem_append.mpr (Or.inr ha)) hb
      have hdisjO : ∀ a ∈ order, a ∉ node :: rest := fun a ha hb =>
        hdisjBig (List.mem_append.mpr (Or.inl ha)) hb
      by_cases hdel : delayedB ops g node
      · rw [if_pos hdel]
        apply ih
        · simp only [List.length_append] at hfuel ⊢
          simp only [List.length_singleton]
          omega
        · have hseq : order ++ (delayed ++ [node]) ++ rest =
              order ++ delayed ++ (node :: rest) := by
            simp [List.append_assoc]
          have hpair : (order ++ delayed) ++ [node] = order ++ (delayed ++ [node]) := by
            rw [List.append_assoc]
          refine ⟨hinv.deg_keys, hinv.deg_spec, ?_, ?_, ?_, ?_, ?_, hinv.order_nd, ?_⟩
          · rw [hseq]
            exact hinv.sched_nodup
          · intro t ht
            rw [hseq] at ht
            exact hinv.sched_keys t ht
          · intro t ht
            rw [hseq] at ht
            exact hinv.sched_zero t ht
          · intro t htK h0
            rw [hseq]
            exact hinv.sched_complete t htK h0
          · intro c hc hcnd htm
            rw [← hpair] at htm ⊢
            rcases List.mem_append.mp htm with htm | htm
            · exact (hinv.topo c hc hcnd htm).trans (List.sublist_append_left _ _)
            · rw [List.mem_singleton] at htm
              have hsrc : c.source_node ∈ order :=
                degSpec_zero_source_mem ops g (htm ▸ hnode0) c hc htm hcnd
              have h1 : List.Sublist [c.source_node] (order ++ delayed) :=
                List.singleton_sublist.mpr (List.mem_append.mpr (Or.inl hsrc))
              have h2 := List.Sublist.append h1
                (List.Sublist.refl [c.target_node])
              rw [htm] at h2 ⊢
              exact h2
          · intro t ht
            rcases List.mem_append.mp ht with ht | ht
            · exact hinv.delayed_d t ht
            · rw [List.mem_singleton] at ht
              rw [ht]
              exact hdel
      · rw [if_neg hdel]
        have hnd : delayedB ops g node = false := Bool.eq_false_iff.mpr hdel
        have hrest0 : ∀ t ∈ rest, degSpec ops g order t = 0 := fun t ht =>
          hinv.sched_zero t ((hmem3 _ t).mpr (Or.inr (Or.inr (List.mem_cons_of_mem _ ht))))
        have htot : ∀ t, (fun _ : Nat => 0) t + cntTo g.connections node t ≤
            degSpec ops g order t := by
          intro t
          rw [Nat.zero_add]
          apply List.countP_mono_left
          intro c _ hpc
          simp only [Bool.and_eq_true, beq_iff_eq] at hpc
          simp only [Bool.and_eq_true, beq_iff_eq, Bool.not_eq_true',
            contains_eq_false_iff]
          exact ⟨⟨hpc.2, by rw [hpc.1]; exact hnd⟩, by rw [hpc.1]; exact hno⟩
        have hq0 : ∀ t, t ∈ rest ↔ t ∈ rest ∨
            (1 ≤ degSpec ops g order t ∧ (fun _ : Nat => 0) t = degSpec ops g order t) := by
          intro t
          constructor
          · exact Or.inl
          · rintro (h | ⟨h1, h2⟩)
            · exact h
            · simp only at h2
              omega
        obtain ⟨hkeys2, hdeg2, hqnd2, hqmem2⟩ :=
          relax_fold ops g hv node order rest hrest0 g.connections deg rest
            (fun _ => 0) (fun c hc => hc) hinv.deg_keys
            (fun t => by rw [Nat.add_zero]; exact hinv.deg_spec t) htot hrnd hq0
        set res := g.connections.foldl (relaxStep node) (deg, rest) with hres
        have hdeg3 : ∀ t, degGet res.1 t + cntTo g.connections node t =
            degSpec ops g order t := by
          intro t
          have := hdeg2 t
          simpa using this
        have hqmem3 : ∀ t, t ∈ res.2 ↔ t ∈ rest ∨
            (1 ≤ degSpec ops g order t ∧
              cntTo g.connections node t = degSpec ops g order t) := by
          intro t
          have := hqmem2 t
          simpa using this
        have happend : ∀ t, degSpec ops g order t =
            degSpec ops g (order ++ [node]) t + cntTo g.connections node t := by
          intro t
          have := degSpec_append_single ops g order node t hno
          rw [if_neg hdel, outCnt_eq_cntTo] at this
          exact this
        have hPzero : ∀ t, 1 ≤ degSpec ops g order t →
            cntTo g.connections node t = degSpec ops g order t →
            degSpec ops g (order ++ [node]) t = 0 := by
          intro t h1 h2
          have := happend t
          omega
        have hPkeys : ∀ t, 1 ≤ degSpec ops g order t →
            cntTo g.connections node t = degSpec ops g order t →
            t ∈ mapKeys g.nodes := by
          intro t h1 h2
          have hpos : 0 < cntTo g.connections node t := by omega
          rw [cntTo] at hpos
          obtain ⟨c, hc, hpc⟩ := List.countP_pos_iff.mp hpos
          simp only [Bool.and_eq_true, beq_iff_eq] at hpc
          exact hpc.2 ▸ hv.conn_target c hc
        have hsub1 : ∀ s ∈ order, s ∈ order ++ [node] := fun s hs =>
          List.mem_append.mpr (Or.inl hs)
        have hmemN : ∀ t : Nat, t ∈ (order ++ [node]) ++ delayed ++ res.2 ↔
            (t ∈ order ∨ t = node) ∨ t ∈ delayed ∨ t ∈ res.2 := by
          intro t
          simp only [List.mem_append, List.mem_singleton]
          tauto
        apply ih
        · simp only [List.length_append] at hfuel ⊢
          simp only [List.length_singleton]
          omega
        · refine ⟨hkeys2, ?_, ?_, ?_, ?_, ?_, ?_, ?_, hinv.delayed_d⟩
          · intro t
            have h1 := hdeg3 t
            have h2 := happend t
            omega
          · -- nodup of the new scheduled list
            rw [List.nodup_append, List.nodup_append, List.nodup_append]
            refine ⟨⟨⟨hond, List.nodup_singleton _, ?_⟩, hdnd, ?_⟩, hqnd2, ?_⟩
            · intro a ha hb
              rw [List.mem_singleton] at hb
              subst hb
              exact hno ha
            · intro a ha hb
              rcases List.mem_append.mp ha with ha | ha
              · exact hdisjOD ha hb
              · rw [List.mem_singleton] at ha
                subst ha
                exact hndel hb
            · intro a ha hb
              rcases (hqmem3 a).mp hb with hbr | ⟨h1, h2⟩
              · rcases List.mem_append.mp ha with ha | ha
                · rcases List.mem_append.mp ha with ha | ha
                  · exact hdisjO a ha (List.mem_cons_of_mem _ hbr)
                  · rw [List.mem_singleton] at ha
                    subst ha
                    exact hnr hbr
                · exact hdisjD a ha (List.mem_cons_of_mem _ hbr)
              · rcases List.mem_append.mp ha with ha | ha
                · rcases List.mem_append.mp ha with ha | ha
                  · have h0 := hinv.sched_zero a ((hmem3 _ a).mpr (Or.inl ha))
                    omega
                  · rw [List.mem_singleton] at ha
                    subst ha
                    omega
                · have h0 := hinv.sched_zero a ((hmem3 _ a).mpr (Or.inr (Or.inl ha)))
                  omega
          · intro t ht
            rcases (hmemN t).mp ht with (ht | ht) | ht | ht
            · exact hinv.sched_keys t ((hmem3 _ t).mpr (Or.inl ht))
            · exact ht ▸ hnodeK
            · exact hinv.sched_keys t ((hmem3 _ t).mpr (Or.inr (Or.inl ht)))
            · rcases (hqmem3 t).mp ht with ht | ⟨h1, h2⟩
              · exact hinv.sched_keys t
                  ((hmem3 _ t).mpr (Or.inr (Or.inr (List.mem_cons_of_mem _ ht))))
              · exact hPkeys t h1 h2
          · intro t ht
            rcases (hmemN t).mp ht with (ht | ht) | ht | ht
            · exact degSpec_zero_of_subset ops g hsub1 t
                (hinv.sched_zero t ((hmem3 _ t).mpr (Or.inl ht)))
            · exact degSpec_zero_of_subset ops g hsub1 t (ht ▸ hnode0)
            · exact degSpec_zero_of_subset ops g hsub1 t
                (hinv.sched_zero t ((hmem3 _ t).mpr (Or.inr (Or.inl ht))))
            · rcases (hqmem3 t).mp ht with ht | ⟨h1, h2⟩
              · exact degSpec_zero_of_subset ops g hsub1 t
                  (hinv.sched_zero t
                    ((hmem3 _ t).mpr (Or.inr (Or.inr (List.mem_cons_of_mem _ ht)))))
              · exact hPzero t h1 h2
          · intro t htK h0
            rw [hmemN t]
            by_cases hD : degSpec ops g order t = 0
            · have := hinv.sched_complete t htK hD
              rcases (hmem3 _ t).mp this with ht | ht | ht
              · exact Or.inl (Or.inl ht)
              · exact Or.inr (Or.inl ht)
              · rcases List.mem_cons.mp ht with ht | ht
                · exact Or.inl (Or.inr ht)
                · exact Or.inr (Or.inr ((hqmem3 t).mpr (Or.inl ht)))
            · have h1 : 1 ≤ degSpec ops g order t := by omega
              have h2 : cntTo g.connections node t = degSpec ops g order t := by
                have := happend t
                omega
              exact Or.inr (Or.inr ((hqmem3 t).mpr (Or.inr ⟨h1, h2⟩)))
          · intro c hc hcnd htm
            have hassoc : (order ++ [node]) ++ delayed = order ++ ([node] ++ delayed) :=
              List.append_assoc _ _ _
            rw [hassoc] at htm ⊢
            rcases List.mem_append.mp htm with htm | htm
            · -- target in order: it was already emitted
              have hold : c.target_node ∈ order ++ delayed :=
                List.mem_append.mpr (Or.inl htm)
              exact sublist_ins_middle order [node] delayed (hinv.topo c hc hcnd hold)
            · rcases List.mem_append.mp htm with htm | htm
              · -- target is the fresh node
                rw [List.mem_singleton] at htm
                have hsrc : c.source_node ∈ order :=
                  degSpec_zero_source_mem ops g (htm ▸ hnode0) c hc htm hcnd
                have h1 : List.Sublist [c.source_node, c.target_node]
                    (order ++ [c.target_node]) := by
                  have := List.Sublist.append
                    (List.singleton_sublist.mpr hsrc)
                    (List.Sublist.refl [c.target_node])
                  exact this
                rw [htm] at h1 ⊢
                exact h1.trans (by
                  rw [← List.append_assoc]
                  exact List.sublist_append_left _ _)
              · -- target already in delayed
                have hold : c.target_node ∈ order ++ delayed :=
                  List.mem_append.mpr (Or.inr htm)
                exact sublist_ins_middle order [node] delayed (hinv.topo c hc hcnd hold)
          · intro t ht
            rcases List.mem_append.mp ht with ht | ht
            · exact hinv.order_nd t ht
            · rw [List.mem_singleton] at ht
              exact ht ▸ hnd

/-! ### Establishing the initial loop state of `calc_processing_order` -/

theorem degSpec_not_key {N : Type} (ops : NodeOps N) (g : Graph N)
    (hv : CalcValid ops g) (done : List Nat) (t : Nat)
    (ht : t ∉ mapKeys g.nodes) : degSpec ops g done t = 0 := by
  rw [degSpec, List.countP_eq_zero]
  intro c hc
  simp only [Bool.and_eq_true, beq_iff_eq, not_and]
  intro h _
  exact absurd (h.1 ▸ hv.conn_target c hc) ht

theorem initDegree_keys {N : Type} (ops : NodeOps N) (g : Graph N) (π : List Nat) :
    (initDegree ops g π).map Prod.fst = π := by
  rw [initDegree]
  have : ∀ (cs : List Connection) (d : List (Nat × Nat)),
      (cs.foldl (fun d c => if delayedB ops g c.source_node then d
        else degIncr d c.target_node) d).map Prod.fst = d.map Prod.fst := by
    intro cs
    induction cs with
    | nil => intro d; rfl
    | cons c cs ih =>
      intro d
      rw [List.foldl_cons]
      by_cases h : delayedB ops g c.source_node
      · rw [if_pos h, ih]
      · rw [if_neg h, ih, degKeys_incr]
  rw [this, degKeys_init]

theorem initDegree_get {N : Type} (ops : NodeOps N) (g : Graph N) (π : List Nat) (t : Nat) :
    degGet (initDegree ops g π) t =
      if t ∈ π then
        g.connections.countP
          (fun c => c.target_node == t && !delayedB ops g c.source_node)
      else 0 := by
  rw [initDegree]
  have main : ∀ (cs : List Connection) (d : List (Nat × Nat)),
      degGet (cs.foldl (fun d c => if delayedB ops g c.source_node then d
        else degIncr d c.target_node) d) t =
      degGet d t +
        (if t ∈ d.map Prod.fst then
          cs.countP (fun c => c.target_node == t && !delayedB ops g c.source_node)
        else 0) := by
    intro cs
    induction cs with
    | nil =>
      intro d
      rw [List.foldl_nil, List.countP_nil]
      by_cases h : t ∈ d.map Prod.fst <;> simp [h]
    | cons c cs ih =>
      intro d
      rw [List.foldl_cons, List.countP_cons]
      by_cases h : delayedB ops g c.source_node
      · rw [if_pos h, ih]
        have hcond : ¬ ((c.target_node == t && !delayedB ops g c.source_node) = true) := by
          simp [h]
        rw [if_neg hcond]
        by_cases hm : t ∈ d.map Prod.fst <;> simp [hm]
      · rw [if_neg h, ih, degKeys_incr]
        by_cases hm : t ∈ d.map Prod.fst
        · rw [if_pos hm, if_pos hm]
          by_cases hc : c.target_node = t
          · have hcond : (c.target_node == t && !delayedB ops g c.source_node) = true := by
              simp [h, hc]
            rw [if_pos hcond, ← hc, degGet_incr_self d _ (hc ▸ hm)]
            omega
          · have hcond : ¬ ((c.target_node == t && !delayedB ops g c.source_node) = true) := by
              simp [hc]
            rw [if_neg hcond, degGet_incr_ne d _ _ (fun he => hc he.symm)]
            omega
        · rw [if_neg hm, if_neg hm]
          by_cases hc : c.target_node = t
          · rw [← hc] at hm
            rw [degIncr_not_mem d _ hm]
          · rw [degGet_incr_ne d _ _ (fun he => hc he.symm)]
  rw [main, degGet_init, degKeys_init, Nat.zero_add]

theorem degSpec_nil_eq {N : Type} (ops : NodeOps N) (g : Graph N) (t : Nat) :
    degSpec ops g [] t =
      g.connections.countP
        (fun c => c.target_node == t && !delayedB ops g c.source_node) := by
  rw [degSpec]
  apply List.countP_congr
  intro c _
  simp

theorem degGet_mem_self (d : List (Nat × Nat)) (t : Nat)
    (h : t ∈ d.map Prod.fst) : (t, degGet d t) ∈ d := by
  induction d with
  | nil => simp at h
  | cons p d ih =>
    rw [degGet_cons]
    by_cases hp : p.1 = t
    · rw [if_pos hp]
      obtain ⟨a, b⟩ := p
      simp only at hp
      rw [← hp]
      exact List.mem_cons_self _ _
    · rw [if_neg hp]
      rw [List.map_cons, List.mem_cons] at h
      rcases h with h | h
      · exact absurd h.symm hp
      · exact List.mem_cons_of_mem _ (ih h)

theorem degGet_of_mem_nodup {d : List (Nat × Nat)} {t v : Nat}
    (hnd : (d.map Prod.fst).Nodup) (h : (t, v) ∈ d) : degGet d t = v := by
  induction d with
  | nil => simp at h
  | cons p d ih =>
    rw [List.map_cons, List.nodup_cons] at hnd
    rw [degGet_cons]
    rcases List.mem_cons.mp h with h | h
    · cases h
      simp
    · have hk : t ∈ d.map Prod.fst :=
        List.mem_map.mpr ⟨(t, v), h, rfl⟩
      have hne : p.1 ≠ t := fun he => hnd.1 (he ▸ hk)
      rw [if_neg hne]
      exact ih hnd.2 h

theorem mem_filterZero_iff (d : List (Nat × Nat))
    (hnd : (d.map Prod.fst).Nodup) (t : Nat) :
    t ∈ (d.filter (fun p => p.2 == 0)).map Prod.fst ↔
      t ∈ d.map Prod.fst ∧ degGet d t = 0 := by
  constructor
  · intro h
    obtain ⟨⟨a, b⟩, hab, he⟩ := List.mem_map.mp h
    simp only at he
    have hmem := List.mem_of_mem_filter hab
    have hz : b = 0 := by simpa using List.of_mem_filter hab
    subst hz
    rw [← he]
    exact ⟨List.mem_map.mpr ⟨(a, 0), hmem, rfl⟩, degGet_of_mem_nodup hnd hmem⟩
  · rintro ⟨h1, h2⟩
    have := degGet_mem_self d t h1
    rw [h2] at this
    exact List.mem_map.mpr ⟨(t, 0), List.mem_filter.mpr ⟨this, by simp⟩, rfl⟩

/-- The initial state of the topological sort satisfies the loop invariant. -/
theorem initial_inv {N : Type} (ops : NodeOps N) (g : Graph N)
    (hv : CalcValid ops g) (π : List Nat) (hπ : π.Perm (mapKeys g.nodes)) :
    LoopInv ops g
      (((initDegree ops g π).filter (fun p => p.2 == 0)).map (fun p => p.1))
      (initDegree ops g π) [] [] := by
  have hπnd : π.Nodup := hπ.nodup_iff.mpr hv.keys_nodup
  have hkeys0 : (initDegree ops g π).map Prod.fst = π := initDegree_keys ops g π
  have hget : ∀ t, degGet (initDegree ops g π) t = degSpec ops g [] t := by
    intro t
    rw [initDegree_get, degSpec_nil_eq]
    by_cases h : t ∈ π
    · rw [if_pos h]
    · rw [if_neg h]
      rw [← degSpec_nil_eq]
      exact (degSpec_not_key ops g hv [] t (fun hk => h (hπ.mem_iff.mpr hk))).symm
  have hfz : ∀ t, t ∈ ((initDegree ops g π).filter (fun p => p.2 == 0)).map
      (fun p => p.1) ↔ t ∈ π ∧ degSpec ops g [] t = 0 := by
    intro t
    have := mem_filterZero_iff (initDegree ops g π) (by rw [hkeys0]; exact hπnd) t
    rw [hkeys0, hget] at this
    exact (by simpa [mapKeys] using this)
  refine ⟨?_, hget, ?_, ?_, ?_, ?_, ?_, ?_, ?_⟩
  · intro t
    rw [hkeys0]
    exact hπ.mem_iff
  · simp only [List.nil_append]
    have hsub : ((initDegree ops g π).filter (fun p => p.2 == 0)).map Prod.fst =
        ((initDegree ops g π).filter (fun p => p.2 == 0)).map (fun p => p.1) := rfl
    rw [← hsub]
    have : List.Sublist ((initDegree ops g π).filter (fun p => p.2 == 0))
        (initDegree ops g π) := List.filter_sublist _
    have hs := this.map Prod.fst
    rw [hkeys0] at hs
    exact hπnd.sublist hs
  · intro t ht
    simp only [List.nil_append] at ht
    exact hπ.mem_iff.mp ((hfz t).mp ht).1
  · intro t ht
    simp only [List.nil_append] at ht
    exact ((hfz t).mp ht).2
  · intro t htK h0
    simp only [List.nil_append]
    exact (hfz t).mpr ⟨hπ.mem_iff.mpr htK, h0⟩
  · intro c _ _ htm
    simp at htm
  · intro t ht
    simp at ht
  · intro t ht
    simp at ht

/-! ### Top-level specification of `calc_processing_order` -/

theorem calc_eq {N : Type} (ops : NodeOps N) (g : Graph N) (π : List Nat) :
    g.calc_processing_order ops π =
      if ((calcRun ops g π).1 ++ (calcRun ops g π).2).length ≠ g.nodes.length
      then .error .CycleWithoutDelay
      else .ok ((calcRun ops g π).1 ++ (calcRun ops g π).2) := rfl

theorem mapKeys_length {N : Type} (m : List (Nat × N)) :
    (mapKeys m).length = m.length := by
  simp [mapKeys]

theorem calcRun_sortResult {N : Type} (ops : NodeOps N) (g : Graph N)
    (π : List Nat) (hv : CalcValid ops g) (hπ : π.Perm (mapKeys g.nodes)) :
    SortResult ops g (calcRun ops g π).1 (calcRun ops g π).2 := by
  apply sortLoop_spec ops g hv
  · rw [mapKeys_length]
    simp
  · exact initial_inv ops g hv π hπ

theorem chain_strengthen {R S : Nat → Nat → Prop} {Q : Nat → Prop} :
    ∀ (l : List Nat) (a : Nat), List.Chain R a l →
      (∀ x ∈ a :: l, Q x) →
      (∀ x y, Q x → R x y → S x y) →
      List.Chain S a l := by
  intro l
  induction l with
  | nil => intro a _ _ _; exact List.Chain.nil
  | cons x l ih =>
    intro a h hQ himp
    cases h with
    | cons hax hchain =>
      exact List.Chain.cons (himp a x (hQ a (List.mem_cons_self _ _)) hax)
        (ih x hchain (fun y hy => hQ y (List.mem_cons_of_mem _ hy)) himp)

/-- Soundness half: if the loop emitted every node (the success criterion),
the graph has no cycle of non-delaying nodes. -/
theorem no_cycle_of_sortResult {N : Type} (ops : NodeOps N) (g : Graph N)
    {O D : List Nat} (hv : CalcValid ops g) (hSR : SortResult ops g O D)
    (hlen : (O ++ D).length = g.nodes.length) :
    ∀ l, ¬ IsUndelayedCycle ops g l := by
  intro l hcyc
  cases l with
  | nil => exact hcyc
  | cons h t =>
    obtain ⟨hnd, hchain⟩ := hcyc
    set L := O ++ D with hL
    have hperm : L.Perm (mapKeys g.nodes) := by
      have hsp := hSR.nodup.subperm (fun x hx => hSR.keys x hx)
      refine hsp.perm_of_length_le ?_
      rw [hlen, mapKeys_length]
    have hmemL : ∀ y ∈ mapKeys g.nodes, y ∈ L := fun y hy => hperm.mem_iff.mpr hy
    have hQ : ∀ x ∈ h :: (t ++ [h]), delayedB ops g x = false := by
      intro x hx
      rcases List.mem_cons.mp hx with hx | hx
      · rw [hx]
        exact hnd h (List.mem_cons_self _ _)
      · rcases List.mem_append.mp hx with hx | hx
        · exact hnd x (List.mem_cons_of_mem _ hx)
        · rw [List.mem_singleton] at hx
          rw [hx]
          exact hnd h (List.mem_cons_self _ _)
    have hchain' : List.Chain (fun x y => L.indexOf x < L.indexOf y) h (t ++ [h]) := by
      apply chain_strengthen (t ++ [h]) h hchain hQ
      intro x y hQx hedge
      obtain ⟨c, hc, hcs, hct⟩ := hedge
      have hyK : y ∈ mapKeys g.nodes := hct ▸ hv.conn_target c hc
      have hyL : y ∈ L := hmemL y hyK
      have hsub : List.Sublist [x, y] L := by
        have := hSR.topo c hc (by rw [hcs]; exact hQx) (by rw [hct]; exact hyL)
        rw [hcs, hct] at this
        exact this
      exact indexOf_lt_of_pair_sublist hsub hSR.nodup
    exact chain_lt_closed_absurd (fun x => L.indexOf x) t h hchain'

/-- Close a predecessor walk into a cycle: `seen` is a nonempty duplicate-free
chain of non-delaying nodes linked by connections, and the head of `seen` has
a predecessor `s` that already occurs in `seen`; the segment from `s` back to
the head is a cycle without delay. -/
theorem close_cycle {N : Type} (ops : NodeOps N) (g : Graph N)
    (v : Nat) (seen : List Nat) (s : Nat)
    (hndP : ∀ x ∈ v :: seen, delayedB ops g x = false)
    (hch : List.Chain' (HasEdge g) (v :: seen))
    (hsE : HasEdge g s v)
    (hsmem : s ∈ v :: seen) :
    ∃ l, IsUndelayedCycle ops g l := by
  obtain ⟨front, back, hsplit⟩ := List.append_of_mem hsmem
  refine ⟨front ++ [s], ?_⟩
  have hsubm : ∀ x ∈ front ++ [s], x ∈ v :: seen := by
    intro x hx
    rw [hsplit]
    rcases List.mem_append.mp hx with hx | hx
    · exact List.mem_append.mpr (Or.inl hx)
    · rw [List.mem_singleton] at hx
      exact List.mem_append.mpr (Or.inr (hx ▸ List.mem_cons_self _ _))
  have hchcl : List.Chain' (HasEdge g) (front ++ [s]) := by
    have h2 : v :: seen = (front ++ [s]) ++ back := by
      rw [hsplit]
      simp
    rw [h2] at hch
    exact (List.chain'_append.mp hch).1
  have hhead : (front ++ [s]).head? = some v := by
    cases hf : front with
    | nil =>
      rw [hf] at hsplit
      simp only [List.nil_append] at hsplit
      injection hsplit with h1 _
      simp [hf, h1]
    | cons a front2 =>
      rw [hf] at hsplit
      simp only [List.cons_append] at hsplit
      injection hsplit with h1 _
      simp [h1]
  cases hcl : front ++ [s] with
  | nil => exact absurd hcl (by simp)
  | cons ch ct =>
    rw [hcl] at hchcl hhead
    have hchv : ch = v := by
      simp only [List.head?_cons] at hhead
      injection hhead
    have hlast : (ch :: ct).getLast? = some s := by
      rw [← hcl, List.getLast?_concat]
    refine ⟨?_, ?_⟩
    · intro n hn
      exact hndP n (hsubm n (hcl ▸ hn))
    · show List.Chain (HasEdge g) ch (ct ++ [ch])
      have hchain2 : List.Chain' (HasEdge g) ((ch :: ct) ++ [ch]) := by
        apply List.chain'_append.mpr
        refine ⟨hchcl, List.chain'_singleton _, ?_⟩
        intro x hx y hy
        simp only [Option.mem_def] at hx hy
        rw [hlast] at hx
        injection hx with hx
        simp only [List.head?_cons] at hy
        injection hy with hy
        rw [← hx, ← hy, hchv]
        exact hsE
      rw [List.cons_append] at hchain2
      exact hchain2
/-- Walk-building step for the completeness half: from a stuck node, keep
stepping to a stuck non-delaying predecessor; since the live nodes are
finite, the walk must close into a cycle of non-delaying nodes. -/
theorem walk_extend {N : Type} (ops : NodeOps N) (g : Graph N)
    (P : Nat → Prop)
    (hkeys : ∀ u, P u → u ∈ mapKeys g.nodes)
    (hndP : ∀ u, P u → delayedB ops g u = false)
    (hpred : ∀ u, P u → ∃ s, P s ∧ HasEdge g s u) :
    ∀ (fuel : Nat) (seen : List Nat),
      (mapKeys g.nodes).length ≤ fuel + seen.length →
      seen ≠ [] →
      (∀ s ∈ seen, P s) →
      seen.Nodup →
      List.Chain' (HasEdge g) seen →
      ∃ l, IsUndelayedCycle ops g l := by
  intro fuel
  induction fuel with
  | zero =>
    intro seen hfuel hne hP hnd hch
    cases hseen : seen with
    | nil => exact absurd hseen hne
    | cons v seen2 =>
      subst hseen
      obtain ⟨s, hsP, hsE⟩ := hpred v (hP v (List.mem_cons_self _ _))
      have hsmem : s ∈ v :: seen2 := by
        have hsp := hnd.subperm (fun x hx => hkeys x (hP x hx))
        have hperm := hsp.perm_of_length_le (by omega)
        exact hperm.mem_iff.mpr (hkeys s hsP)
      exact close_cycle ops g v seen2 s (fun x hx => hndP x (hP x hx)) hch hsE hsmem
  | succ fuel ih =>
    intro seen hfuel hne hP hnd hch
    cases hseen : seen with
    | nil => exact absurd hseen hne
    | cons v seen2 =>
      subst hseen
      obtain ⟨s, hsP, hsE⟩ := hpred v (hP v (List.mem_cons_self _ _))
      by_cases hsmem : s ∈ v :: seen2
      · exact close_cycle ops g v seen2 s (fun x hx => hndP x (hP x hx)) hch hsE hsmem
      · apply ih (s :: v :: seen2)
        · simp only [List.length_cons] at hfuel ⊢
          omega
        · simp
        · intro x hx
          rcases List.mem_cons.mp hx with hx | hx
          · exact hx ▸ hsP
          · exact hP x hx
        · exact List.nodup_cons.mpr ⟨hsmem, hnd⟩
        · exact List.Chain'.cons' hch (by
            intro y hy
            simp only [List.head?_cons, Option.mem_def] at hy
            injection hy with hy
            exact hy ▸ hsE)

/-- Completeness half: when the loop fails to emit every node, the graph
contains a cycle without delay. -/
theorem cycle_of_sortResult_incomplete {N : Type} (ops : NodeOps N) (g : Graph N)
    (hv : CalcValid ops g) {O D : List Nat} (hSR : SortResult ops g O D)
    (hlen : (O ++ D).length ≠ g.nodes.length) :
    ∃ l, IsUndelayedCycle ops g l := by
  have hle : (O ++ D).length ≤ (mapKeys g.nodes).length :=
    nodup_length_le _ _ hSR.nodup hSR.keys
  rw [mapKeys_length] at hle
  have hstuck : ∃ u, u ∈ mapKeys g.nodes ∧ u ∉ O ++ D := by
    by_contra hcon
    push_neg at hcon
    have := nodup_length_le (mapKeys g.nodes) (O ++ D) hv.keys_nodup hcon
    rw [mapKeys_length] at this
    omega
  obtain ⟨u0, hu0K, hu0⟩ := hstuck
  have hpred0 : ∀ u, u ∈ mapKeys g.nodes → u ∉ O ++ D →
      ∃ s, (s ∈ mapKeys g.nodes ∧ s ∉ O ++ D ∧ delayedB ops g s = false) ∧
        HasEdge g s u := by
    intro u huK hu
    have hdeg : degSpec ops g O u ≠ 0 := fun h0 => hu (hSR.complete u huK h0)
    have hpos : 0 < degSpec ops g O u := Nat.pos_of_ne_zero hdeg
    rw [degSpec] at hpos
    obtain ⟨c, hc, hpc⟩ := List.countP_pos_iff.mp hpos
    simp only [Bool.and_eq_true, beq_iff_eq, Bool.not_eq_true',
      contains_eq_false_iff] at hpc
    obtain ⟨⟨hct, hcnd⟩, hcO⟩ := hpc
    refine ⟨c.source_node, ⟨hv.conn_source c hc, ?_, hcnd⟩, ⟨c, hc, rfl, hct⟩⟩
    intro hmem
    rcases List.mem_append.mp hmem with hm | hm
    · exact hcO hm
    · have := hSR.delayed_d _ hm
      rw [hcnd] at this
      cases this
  obtain ⟨s0, hs0P, _⟩ := hpred0 u0 hu0K hu0
  exact walk_extend ops g
    (fun u => u ∈ mapKeys g.nodes ∧ u ∉ O ++ D ∧ delayedB ops g u = false)
    (fun u hu => hu.1) (fun u hu => hu.2.2)
    (fun u hu => hpred0 u hu.1 hu.2.1)
    (mapKeys g.nodes).length [s0]
    (by simp) (by simp) (by
      intro x hx
      rw [List.mem_singleton] at hx
      exact hx ▸ hs0P)
    (List.nodup_singleton _) (List.chain'_singleton _)

/-- `calc_processing_order` reports `CycleWithoutDelay` (its only error)
exactly when the graph contains a directed cycle of non-delaying nodes;
this holds for every iteration order `π` of the internal hash map. -/
theorem calc_error_iff {N : Type} (ops : NodeOps N) (g : Graph N) (π : List Nat)
    (hv : CalcValid ops g) (hπ : π.Perm (mapKeys g.nodes)) :
    g.calc_processing_order ops π = .error .CycleWithoutDelay ↔
      ∃ l, IsUndelayedCycle ops g l := by
  rw [calc_eq]
  have hSR := calcRun_sortResult ops g π hv hπ
  by_cases hlen : ((calcRun ops g π).1 ++ (calcRun ops g π).2).length = g.nodes.length
  · rw [if_neg (by omega)]
    constructor
    · intro h
      cases h
    · rintro ⟨l, hcyc⟩
      exact absurd hcyc (no_cycle_of_sortResult ops g hv hSR hlen l)
  · rw [if_pos hlen]
    constructor
    · intro _
      exact cycle_of_sortResult_incomplete ops g hv hSR hlen
    · intro _
      rfl

/-- The only error `calc_processing_order` can produce is `CycleWithoutDelay`. -/
theorem calc_error_unique {N : Type} (ops : NodeOps N) (g : Graph N) (π : List Nat)
    {e : GraphError} (h : g.calc_processing_order ops π = .error e) :
    e = .CycleWithoutDelay := by
  rw [calc_eq] at h
  by_cases hlen : ((calcRun ops g π).1 ++ (calcRun ops g π).2).length = g.nodes.length
  · rw [if_neg (by omega)] at h
    cases h
  · rw [if_pos hlen] at h
    injection h with h
    exact h.symm

/-- On success, the computed order is a duplicate-free permutation of the
live node ids in which every constraining connection goes forward and every
delaying node comes after every non-delaying node. -/
theorem calc_ok_spec {N : Type} (ops : NodeOps N) (g : Graph N) (π : List Nat)
    (hv : CalcValid ops g) (hπ : π.Perm (mapKeys g.nodes)) {L : List Nat}
    (h : g.calc_processing_order ops π = .ok L) :
    L.Perm (mapKeys g.nodes) ∧
    (∀ c ∈ g.connections, delayedB ops g c.source_node = false →
      List.Sublist [c.source_node, c.target_node] L) ∧
    (∀ a b, a ∈ L → b ∈ L → delayedB ops g a = false → delayedB ops g b = true →
      List.Sublist [a, b] L) ∧
    L.Nodup := by
  rw [calc_eq] at h
  have hSR := calcRun_sortResult ops g π hv hπ
  by_cases hlen : ((calcRun ops g π).1 ++ (calcRun ops g π).2).length = g.nodes.length
  · rw [if_neg (by omega)] at h
    injection h with h
    subst h
    have hperm : ((calcRun ops g π).1 ++ (calcRun ops g π).2).Perm (mapKeys g.nodes) := by
      have hsp := hSR.nodup.subperm (fun x hx => hSR.keys x hx)
      refine hsp.perm_of_length_le ?_
      rw [hlen, mapKeys_length]
    refine ⟨hperm, ?_, ?_, hSR.nodup⟩
    · intro c hc hcnd
      apply hSR.topo c hc hcnd
      exact hperm.mem_iff.mpr (hv.conn_target c hc)
    · intro a b ha hb hand hbd
      have haO : a ∈ (calcRun ops g π).1 := by
        rcases List.mem_append.mp ha with h | h
        · exact h
        · rw [hSR.delayed_d a h] at hand
          cases hand
      have hbD : b ∈ (calcRun ops g π).2 := by
        rcases List.mem_append.mp hb with h | h
        · rw [hSR.order_nd b h] at hbd
          cases hbd
        · exact h
      exact List.Sublist.append (List.singleton_sublist.mpr haO)
        (List.singleton_sublist.mpr hbD)
  · rw [if_pos hlen] at h
    cases h

/-! ### Graph-level invariant and reachability -/

theorem validate_ok_eq {N : Type} (ops : NodeOps N) (g : Graph N) {c d : Connection}
    (h : g.validate_connection ops c = .ok d) : d = c := by
  rw [Graph.validate_connection] at h
  split at h
  · cases h
  · split at h
    · cases h
    · split at h
      · cases h
      · split at h
        · cases h
        · injection h with h
          exact h.symm

theorem get_node_ok_iff {N : Type} (g : Graph N) (id : Nat) {n : N} :
    g.get_node id = .ok n ↔ mapGet g.nodes id = some n := by
  rw [Graph.get_node]
  cases h : mapGet g.nodes id
  · simp
  · constructor
    · intro he
      injection he with he
      rw [he]
    · intro he
      injection he with he
      rw [he]

theorem validate_ok_endpoints {N : Type} (ops : NodeOps N) (g : Graph N)
    {c : Connection} (h : g.validate_connection ops c = .ok c) :
    c.source_node ∈ mapKeys g.nodes ∧ c.target_node ∈ mapKeys g.nodes := by
  rw [Graph.validate_connection] at h
  split at h
  · cases h
  · rename_i source hs
    split at h
    · cases h
    · rename_i target ht
      constructor
      · rw [← mapGet_isSome_iff, (get_node_ok_iff g c.source_node).mp hs]
        rfl
      · rw [← mapGet_isSome_iff, (get_node_ok_iff g c.target_node).mp ht]
        rfl

theorem Inv.calcValid {N : Type} {ops : NodeOps N} {g : Graph N}
    (h : Inv ops g) : CalcValid ops g := by
  refine ⟨h.keys_nodup, ?_, ?_⟩
  · intro c hc
    exact (validate_ok_endpoints ops g (h.conn_valid c hc)).1
  · intro c hc
    exact (validate_ok_endpoints ops g (h.conn_valid c hc)).2

/-- Cycles transfer to a graph with the same nodes and more connections. -/
theorem cycle_mono {N : Type} (ops : NodeOps N) {g g' : Graph N}
    (hn : g.nodes = g'.nodes)
    (hc : ∀ c ∈ g.connections, c ∈ g'.connections) {l : List Nat}
    (h : IsUndelayedCycle ops g l) : IsUndelayedCycle ops g' l := by
  cases l with
  | nil => exact h
  | cons a t =>
    obtain ⟨hnd, hchain⟩ := h
    refine ⟨?_, ?_⟩
    · intro n hnmem
      have := hnd n hnmem
      rw [delayedB, hn] at this
      rw [delayedB]
      exact this
    · exact hchain.imp (fun x y ⟨c, hcm, hcs, hct⟩ => ⟨c, hc c hcm, hcs, hct⟩)

/-- A graph whose cached order is a consistent permutation has no undelayed
cycle: the order would have to increase strictly around the cycle. -/
theorem no_cycle_of_topo_order {N : Type} (ops : NodeOps N) (g : Graph N)
    (_hv : CalcValid ops g) (L : List Nat)
    (hnodup : L.Nodup) (_hmemL : ∀ y ∈ mapKeys g.nodes, y ∈ L)
    (htopo : ∀ c ∈ g.connections, delayedB ops g c.source_node = false →
      List.Sublist [c.source_node, c.target_node] L) :
    ∀ l, ¬ IsUndelayedCycle ops g l := by
  intro l hcyc
  cases l with
  | nil => exact hcyc
  | cons h t =>
    obtain ⟨hnd, hchain⟩ := hcyc
    have hQ : ∀ x ∈ h :: (t ++ [h]), delayedB ops g x = false := by
      intro x hx
      rcases List.mem_cons.mp hx with hx | hx
      · rw [hx]
        exact hnd h (List.mem_cons_self _ _)
      · rcases List.mem_append.mp hx with hx | hx
        · exact hnd x (List.mem_cons_of_mem _ hx)
        · rw [List.mem_singleton] at hx
          rw [hx]
          exact hnd h (List.mem_cons_self _ _)
    have hchain' : List.Chain (fun x y => L.indexOf x < L.indexOf y) h (t ++ [h]) := by
      apply chain_strengthen (t ++ [h]) h hchain hQ
      intro x y hQx hedge
      obtain ⟨c, hc, hcs, hct⟩ := hedge
      have hsub : List.Sublist [x, y] L := by
        have := htopo c hc (by rw [hcs]; exact hQx)
        rw [hcs, hct] at this
        exact this
      exact indexOf_lt_of_pair_sublist hsub hnodup
    exact chain_lt_closed_absurd (fun x => L.indexOf x) t h hchain'

/-- A graph satisfying the invariant has no undelayed cycle. -/
theorem Inv.no_cycle {N : Type} {ops : NodeOps N} {g : Graph N} (h : Inv ops g) :
    ∀ l, ¬ IsUndelayedCycle ops g l := by
  apply no_cycle_of_topo_order ops g h.calcValid g.processing_order
  · exact h.order_perm.nodup_iff.mpr h.keys_nodup
  · intro y hy
    exact h.order_perm.mem_iff.mpr hy
  · exact h.order_topo

/-! ### Characterization of the mutation operations -/

theorem add_connection_error_frame {N : Type} (ops : NodeOps N) (π : List Nat)
    (g : Graph N) (c : Connection) {g' : Graph N} {e : GraphError}
    (h : g.add_connection ops π c = (g', .error e)) : g' = g := by
  rw [Graph.add_connection] at h
  split at h
  · injection h with h1 _
    exact h1.symm
  · rename_i c' hval
    have hc' : c' = c := validate_ok_eq ops g hval
    subst hc'
    split at h
    · injection h with h1 _
      exact h1.symm
    · split at h
      · rename_i e0 hcalc
        injection h with h1 _
        rw [← h1]
        rw [List.dropLast_concat]
      · injection h with _ h2
        cases h2

theorem add_connection_ok_char {N : Type} (ops : NodeOps N) (π : List Nat)
    (g : Graph N) (c : Connection) {g' : Graph N} {d : Connection}
    (h : g.add_connection ops π c = (g', .ok d)) :
    d = c ∧ g.validate_connection ops c = .ok c ∧
    (∀ c' ∈ g.connections,
      ¬(c'.target_node = c.target_node ∧ c'.target_input = c.target_input)) ∧
    g'.connections = g.connections ++ [c] ∧ g'.nodes = g.nodes ∧
    g'.next_node_id = g.next_node_id ∧
    Graph.calc_processing_order ops
      { g with connections := g.connections ++ [c] } π = .ok g'.processing_order := by
  rw [Graph.add_connection] at h
  split at h
  · injection h with _ h2
    cases h2
  · rename_i c' hval
    have hc' : c' = c := validate_ok_eq ops g hval
    subst hc'
    split at h
    · rename_i hfind
      injection h with _ h2
      cases h2
    · rename_i hfind
      split at h
      · rename_i e0 hcalc
        injection h with _ h2
        cases h2
      · rename_i L hcalc
        injection h with h1 h2
        injection h2 with h2
        refine ⟨h2.symm, hval, ?_, ?_, ?_, ?_, ?_⟩
        · intro cc hcmem hcon
          have hnone := Option.not_isSome_iff_eq_none.mp hfind
          have hall := List.find?_eq_none.mp hnone cc hcmem
          simp only [Bool.and_eq_true, beq_iff_eq] at hall
          exact hall ⟨hcon.1, hcon.2⟩
        · rw [← h1]
        · rw [← h1]
        · rw [← h1]
        · rw [← h1]
          exact hcalc

theorem add_node_some_char {N : Type} (ops : NodeOps N) (π : List Nat)
    (g : Graph N) (n : N) {g' : Graph N} {id : Nat}
    (h : g.add_node ops π n = some (g', id)) :
    id = g.next_node_id ∧
    g'.nodes = mapInsert g.nodes g.next_node_id n ∧
    g'.connections = g.connections ∧
    g'.next_node_id = g.next_node_id + 1 ∧
    g.next_node_id + 1 < 2 ^ 32 ∧
    Graph.calc_processing_order ops
      { g with nodes := mapInsert g.nodes g.next_node_id n } π =
        .ok g'.processing_order := by
  rw [Graph.add_node] at h
  split at h
  · cases h
  · rename_i L hcalc
    split at h
    · rename_i hlt
      injection h with h
      injection h with h1 h2
      refine ⟨h2.symm, ?_, ?_, ?_, hlt, ?_⟩
      · rw [← h1]
      · rw [← h1]
      · rw [← h1]
      · rw [← h1]
        exact hcalc
    · cases h

theorem remove_connection_char {N : Type} (ops : NodeOps N) (π : List Nat)
    (g : Graph N) (c : Connection) {g' : Graph N} {r : Except GraphError Connection}
    (h : g.remove_connection ops π c = some (g', r)) :
    (c ∉ g.connections ∧ g' = g ∧ r = .error (.ConnectionNotExists c)) ∨
    (c ∈ g.connections ∧ r = .ok c ∧
      g'.connections = g.connections.filter (fun x => x ≠ c) ∧
      g'.nodes = g.nodes ∧ g'.next_node_id = g.next_node_id ∧
      Graph.calc_processing_order ops
        { g with connections := g.connections.filter (fun x => x ≠ c) } π =
          .ok g'.processing_order) := by
  rw [Graph.remove_connection] at h
  split at h
  · rename_i hmem
    right
    split at h
    · cases h
    · rename_i L hcalc
      injection h with h
      injection h with h1 h2
      refine ⟨hmem, h2.symm, ?_, ?_, ?_, ?_⟩
      · rw [← h1]
      · rw [← h1]
      · rw [← h1]
      · rw [← h1]
        exact hcalc
  · rename_i hmem
    left
    injection h with h
    injection h with h1 h2
    exact ⟨hmem, h1.symm, h2.symm⟩

theorem remove_node_char {N : Type} (ops : NodeOps N) (π : List Nat)
    (g : Graph N) (id : Nat) {g' : Graph N} {r : Except GraphError N}
    (h : g.remove_node ops π id = some (g', r)) :
    (mapGet g.nodes id = none ∧ g' = g ∧ r = .error (.NodeNotExists id)) ∨
    (∃ n, mapGet g.nodes id = some n ∧ r = .ok n ∧
      g'.nodes = mapRemove g.nodes id ∧
      g'.connections = (removeNodeBase ops g id).connections ∧
      g'.next_node_id = g.next_node_id ∧
      Graph.calc_processing_order ops (removeNodeBase ops g id) π =
        .ok g'.processing_order) := by
  rw [Graph.remove_node] at h
  split at h
  · rename_i hget
    left
    injection h with h
    injection h with h1 h2
    exact ⟨hget, h1.symm, h2.symm⟩
  · rename_i n hget
    right
    split at h
    · cases h
    · rename_i L hcalc
      injection h with h
      injection h with h1 h2
      refine ⟨n, hget, h2.symm, ?_, ?_, ?_, ?_⟩
      · rw [← h1]
      · rw [← h1]
        rfl
      · rw [← h1]
      · rw [← h1]
        exact hcalc

/-- Along a chain, every element except the last has an outgoing edge. -/
theorem chain_sources {N : Type} {g : Graph N} :
    ∀ (l : List Nat) (a : Nat), List.Chain (HasEdge g) a l →
      ∀ x ∈ (a :: l).dropLast, ∃ y, HasEdge g x y := by
  intro l
  induction l with
  | nil =>
    intro a _ x hx
    simp at hx
  | cons b l ih =>
    intro a hch x hx
    cases hch with
    | cons he hch2 =>
      have hx2 : x ∈ a :: (b :: l).dropLast := hx
      rcases List.mem_cons.mp hx2 with hx3 | hx3
      · exact ⟨b, hx3 ▸ he⟩
      · exact ih b hch2 x hx3

/-- Every node of an undelayed cycle is the source of some connection. -/
theorem cycle_sources {N : Type} {g : Graph N}
    (t : List Nat) (h : Nat) (hch : List.Chain (HasEdge g) h (t ++ [h])) :
    ∀ x ∈ h :: t, ∃ y, HasEdge g x y := by
  have := chain_sources (t ++ [h]) h hch
  intro x hx
  apply this
  have : (h :: (t ++ [h])).dropLast = h :: t := by
    have h2 : h :: (t ++ [h]) = (h :: t) ++ [h] := by simp
    rw [h2, List.dropLast_concat]
  rw [this]
  exact hx

/-- Transfer an undelayed cycle to a graph with more connections, provided
the delay flags agree on edge sources. -/
theorem cycle_transfer {N : Type} (ops : NodeOps N) {g g' : Graph N}
    (hconn : ∀ c ∈ g'.connections, c ∈ g.connections)
    (hflag : ∀ x, (∃ y, HasEdge g' x y) → delayedB ops g' x = delayedB ops g x)
    {l : List Nat} (h : IsUndelayedCycle ops g' l) : IsUndelayedCycle ops g l := by
  cases l with
  | nil => exact h
  | cons a t =>
    obtain ⟨hnd, hchain⟩ := h
    refine ⟨?_, ?_⟩
    · intro n hnmem
      have hsrc := cycle_sources t a hchain n hnmem
      rw [← hflag n hsrc]
      exact hnd n hnmem
    · exact hchain.imp (fun x y ⟨c, hcm, hcs, hct⟩ => ⟨c, hconn c hcm, hcs, hct⟩)

/-! ### Congruence helpers -/

theorem get_node_congr {N : Type} {g g' : Graph N} (j : Nat)
    (h : mapGet g'.nodes j = mapGet g.nodes j) :
    g'.get_node j = g.get_node j := by
  rw [Graph.get_node, Graph.get_node, h]

theorem validate_congr {N : Type} (ops : NodeOps N) {g g' : Graph N} (c : Connection)
    (hs : mapGet g'.nodes c.source_node = mapGet g.nodes c.source_node)
    (ht : mapGet g'.nodes c.target_node = mapGet g.nodes c.target_node) :
    g'.validate_connection ops c = g.validate_connection ops c := by
  rw [Graph.validate_connection, Graph.validate_connection,
    get_node_congr c.source_node hs, get_node_congr c.target_node ht]

theorem validate_nodes_eq {N : Type} (ops : NodeOps N) {g g' : Graph N}
    (h : g'.nodes = g.nodes) (c : Connection) :
    g'.validate_connection ops c = g.validate_connection ops c :=
  validate_congr ops c (by rw [h]) (by rw [h])

theorem delayedB_congr {N : Type} (ops : NodeOps N) {g g' : Graph N} (x : Nat)
    (h : mapGet g'.nodes x = mapGet g.nodes x) :
    delayedB ops g' x = delayedB ops g x := by
  rw [delayedB, delayedB, h]

theorem delayedB_nodes_eq {N : Type} (ops : NodeOps N) {g g' : Graph N}
    (h : g'.nodes = g.nodes) (x : Nat) :
    delayedB ops g' x = delayedB ops g x :=
  delayedB_congr ops x (by rw [h])

/-! ### Invariant preservation -/

theorem inv_new {N : Type} (ops : NodeOps N) : Inv ops (Graph.new (N := N)) := by
  refine ⟨?_, ?_, ?_, ?_, ?_, ?_, ?_⟩
  · exact List.nodup_nil
  · intro c hc
    cases hc
  · exact List.Pairwise.nil
  · intro k hk
    cases hk
  · exact List.Perm.refl _
  · intro c hc
    cases hc
  · intro a b ha _ _ _
    cases ha

theorem inv_add_connection {N : Type} (ops : NodeOps N) (π : List Nat)
    (g : Graph N) (c : Connection) {g' : Graph N} {r : Except GraphError Connection}
    (hinv : Inv ops g) (hπ : π.Perm (mapKeys g.nodes))
    (h : g.add_connection ops π c = (g', r)) : Inv ops g' := by
  cases r with
  | error e =>
    rw [add_connection_error_frame ops π g c h]
    exact hinv
  | ok d =>
    obtain ⟨hd, hval, hfree, hconns, hnodes, hnext, hcalc⟩ :=
      add_connection_ok_char ops π g c h
    have hep := validate_ok_endpoints ops g hval
    have hv1 : CalcValid ops { g with connections := g.connections ++ [c] } := by
      refine ⟨hinv.keys_nodup, ?_, ?_⟩
      · intro c' hc'
        rcases List.mem_append.mp hc' with hc' | hc'
        · exact (validate_ok_endpoints ops g (hinv.conn_valid c' hc')).1
        · rw [List.mem_singleton] at hc'
          exact hc' ▸ hep.1
      · intro c' hc'
        rcases List.mem_append.mp hc' with hc' | hc'
        · exact (validate_ok_endpoints ops g (hinv.conn_valid c' hc')).2
        · rw [List.mem_singleton] at hc'
          exact hc' ▸ hep.2
    obtain ⟨hperm, htopo, hsplit, hnodup⟩ := calc_ok_spec ops
      { g with connections := g.connections ++ [c] } π hv1 hπ hcalc
    refine ⟨?_, ?_, ?_, ?_, ?_, ?_, ?_⟩
    · rw [hnodes]
      exact hinv.keys_nodup
    · intro c' hc'
      rw [validate_nodes_eq ops hnodes]
      rw [hconns] at hc'
      rcases List.mem_append.mp hc' with hc' | hc'
      · exact hinv.conn_valid c' hc'
      · rw [List.mem_singleton] at hc'
        rw [hc']
        exact hval
    · rw [hconns]
      rw [List.pairwise_append]
      refine ⟨hinv.unique_inputs, List.pairwise_singleton _ _, ?_⟩
      intro a ha b hb
      rw [List.mem_singleton] at hb
      subst hb
      by_cases h1 : a.target_node = b.target_node
      · exact Or.inr (fun h2 => hfree a ha ⟨h1, h2⟩)
      · exact Or.inl h1
    · rw [hnodes, hnext]
      exact hinv.fresh
    · rw [hnodes]
      exact hperm
    · intro c' hc'
      rw [hconns] at hc'
      intro hcnd
      rw [delayedB_nodes_eq ops hnodes] at hcnd
      exact htopo c' hc' hcnd
    · intro a b ha hb hand hbd
      rw [delayedB_nodes_eq ops hnodes] at hand hbd
      exact hsplit a b ha hb hand hbd

theorem except_toBool_true {ε α : Type} {e : Except ε α} (h : e.toBool = true) :
    ∃ a, e = .ok a := by
  cases e with
  | error _ => cases h
  | ok a => exact ⟨a, rfl⟩

theorem inv_add_node {N : Type} (ops : NodeOps N) (π : List Nat)
    (g : Graph N) (n : N) {g' : Graph N} {id : Nat}
    (hinv : Inv ops g) (hπ : π.Perm (mapKeys (mapInsert g.nodes g.next_node_id n)))
    (h : g.add_node ops π n = some (g', id)) : Inv ops g' := by
  obtain ⟨hid, hnodes, hconns, hnext, hlt, hcalc⟩ := add_node_some_char ops π g n h
  have hfreshK : g.next_node_id ∉ mapKeys g.nodes := fun hk =>
    lt_irrefl _ (hinv.fresh _ hk)
  have hkeys' : mapKeys (mapInsert g.nodes g.next_node_id n) =
      mapKeys g.nodes ++ [g.next_node_id] := mapKeys_insert_not_mem _ _ _ hfreshK
  have hkeysnd : (mapKeys (mapInsert g.nodes g.next_node_id n)).Nodup := by
    rw [hkeys', List.nodup_append]
    refine ⟨hinv.keys_nodup, List.nodup_singleton _, ?_⟩
    intro a ha hb
    rw [List.mem_singleton] at hb
    subst hb
    exact hfreshK ha
  have hget : ∀ j, j ≠ g.next_node_id →
      mapGet (mapInsert g.nodes g.next_node_id n) j = mapGet g.nodes j := by
    intro j hj
    rw [mapGet_insert_not_mem _ _ _ _ hfreshK, if_neg hj]
  have hv1 : CalcValid ops { g with nodes := mapInsert g.nodes g.next_node_id n } := by
    refine ⟨hkeysnd, ?_, ?_⟩
    · intro c hc
      have := (validate_ok_endpoints ops g (hinv.conn_valid c hc)).1
      show c.source_node ∈ mapKeys (mapInsert g.nodes g.next_node_id n)
      rw [hkeys']
      exact List.mem_append.mpr (Or.inl this)
    · intro c hc
      have := (validate_ok_endpoints ops g (hinv.conn_valid c hc)).2
      show c.target_node ∈ mapKeys (mapInsert g.nodes g.next_node_id n)
      rw [hkeys']
      exact List.mem_append.mpr (Or.inl this)
  obtain ⟨hperm, htopo, hsplit, hnodup⟩ := calc_ok_spec ops
    { g with nodes := mapInsert g.nodes g.next_node_id n } π hv1 hπ hcalc
  refine ⟨?_, ?_, ?_, ?_, ?_, ?_, ?_⟩
  · rw [hnodes]
    exact hkeysnd
  · intro c hc
    rw [hconns] at hc
    have hm := validate_ok_endpoints ops g (hinv.conn_valid c hc)
    have hvc : g'.validate_connection ops c = g.validate_connection ops c := by
      apply validate_congr ops c
      · rw [hnodes]
        exact hget _ (fun he => hfreshK (he ▸ hm.1))
      · rw [hnodes]
        exact hget _ (fun he => hfreshK (he ▸ hm.2))
    rw [hvc]
    exact hinv.conn_valid c hc
  · rw [hconns]
    exact hinv.unique_inputs
  · intro k hk
    rw [hnodes, hkeys'] at hk
    rw [hnext]
    rcases List.mem_append.mp hk with hk | hk
    · exact Nat.lt_succ_of_lt (hinv.fresh k hk)
    · rw [List.mem_singleton] at hk
      subst hk
      exact Nat.lt_succ_self _
  · rw [hnodes]
    exact hperm
  · intro c hc hcnd
    rw [hconns] at hc
    have : delayedB ops g' c.source_node =
        delayedB ops { g with nodes := mapInsert g.nodes g.next_node_id n }
          c.source_node := delayedB_nodes_eq ops (by rw [hnodes]) _
    rw [this] at hcnd
    exact htopo c hc hcnd
  · intro a b ha hb hand hbd
    have hda : delayedB ops g' a =
        delayedB ops { g with nodes := mapInsert g.nodes g.next_node_id n } a :=
      delayedB_nodes_eq ops (by rw [hnodes]) _
    have hdb : delayedB ops g' b =
        delayedB ops { g with nodes := mapInsert g.nodes g.next_node_id n } b :=
      delayedB_nodes_eq ops (by rw [hnodes]) _
    rw [hda] at hand
    rw [hdb] at hbd
    exact hsplit a b ha hb hand hbd

theorem inv_remove_connection {N : Type} (ops : NodeOps N) (π : List Nat)
    (g : Graph N) (c : Connection) {g' : Graph N} {r : Except GraphError Connection}
    (hinv : Inv ops g) (hπ : π.Perm (mapKeys g.nodes))
    (h : g.remove_connection ops π c = some (g', r)) : Inv ops g' := by
  rcases remove_connection_char ops π g c h with ⟨_, hEq, _⟩ |
    ⟨hmem, hr, hconns, hnodes, hnext, hcalc⟩
  · rw [hEq]
    exact hinv
  · have hv1 : CalcValid ops
        { g with connections := g.connections.filter (fun x => x ≠ c) } := by
      refine ⟨hinv.keys_nodup, ?_, ?_⟩
      · intro c' hc'
        exact (validate_ok_endpoints ops g
          (hinv.conn_valid c' (List.mem_of_mem_filter hc'))).1
      · intro c' hc'
        exact (validate_ok_endpoints ops g
          (hinv.conn_valid c' (List.mem_of_mem_filter hc'))).2
    obtain ⟨hperm, htopo, hsplit, hnodup⟩ := calc_ok_spec ops
      { g with connections := g.connections.filter (fun x => x ≠ c) } π hv1 hπ hcalc
    refine ⟨?_, ?_, ?_, ?_, ?_, ?_, ?_⟩
    · rw [hnodes]
      exact hinv.keys_nodup
    · intro c' hc'
      rw [hconns] at hc'
      rw [validate_nodes_eq ops hnodes]
      exact hinv.conn_valid c' (List.mem_of_mem_filter hc')
    · rw [hconns]
      exact hinv.unique_inputs.sublist (List.filter_sublist _)
    · rw [hnodes, hnext]
      exact hinv.fresh
    · rw [hnodes]
      exact hperm
    · intro c' hc' hcnd
      rw [hconns] at hc'
      rw [delayedB_nodes_eq ops hnodes] at hcnd
      exact htopo c' hc' hcnd
    · intro a b ha hb hand hbd
      rw [delayedB_nodes_eq ops hnodes] at hand hbd
      exact hsplit a b ha hb hand hbd

theorem inv_remove_node {N : Type} (ops : NodeOps N) (π : List Nat)
    (g : Graph N) (id : Nat) {g' : Graph N} {r : Except GraphError N}
    (hinv : Inv ops g) (hπ : π.Perm (mapKeys (mapRemove g.nodes id)))
    (h : g.remove_node ops π id = some (g', r)) : Inv ops g' := by
  rcases remove_node_char ops π g id h with ⟨_, hEq, _⟩ |
    ⟨n, hget, hr, hnodes, hconns, hnext, hcalc⟩
  · rw [hEq]
    exact hinv
  · have hkeysnd : (mapKeys (mapRemove g.nodes id)).Nodup := by
      rw [mapKeys_remove]
      exact hinv.keys_nodup.filter _
    have hkept : ∀ c ∈ (removeNodeBase ops g id).connections,
        Graph.validate_connection ops { g with nodes := mapRemove g.nodes id } c =
          .ok c := by
      intro c hc
      have hb := List.of_mem_filter hc
      obtain ⟨d, hd⟩ := except_toBool_true hb
      have := validate_ok_eq ops _ hd
      rw [this] at hd
      exact hd
    have hv1 : CalcValid ops (removeNodeBase ops g id) := by
      refine ⟨hkeysnd, ?_, ?_⟩
      · intro c hc
        exact (validate_ok_endpoints ops _ (hkept c hc)).1
      · intro c hc
        exact (validate_ok_endpoints ops _ (hkept c hc)).2
    obtain ⟨hperm, htopo, hsplit, hnodup⟩ :=
      calc_ok_spec ops (removeNodeBase ops g id) π hv1 hπ hcalc
    refine ⟨?_, ?_, ?_, ?_, ?_, ?_, ?_⟩
    · rw [hnodes]
      exact hkeysnd
    · intro c hc
      rw [hconns] at hc
      have : g'.validate_connection ops c =
          Graph.validate_connection ops { g with nodes := mapRemove g.nodes id } c :=
        validate_nodes_eq ops (by rw [hnodes]) c
      rw [this]
      exact hkept c hc
    · rw [hconns]
      exact hinv.unique_inputs.sublist (List.filter_sublist _)
    · intro k hk
      rw [hnodes, mapKeys_remove] at hk
      rw [hnext]
      exact hinv.fresh k (List.mem_of_mem_filter hk)
    · rw [hnodes]
      exact hperm
    · intro c hc hcnd
      rw [hconns] at hc
      rw [delayedB_nodes_eq ops (g := removeNodeBase ops g id) (by rw [hnodes]; rfl)] at hcnd
      exact htopo c hc hcnd
    · intro a b ha hb hand hbd
      rw [delayedB_nodes_eq ops (g := removeNodeBase ops g id) (by rw [hnodes]; rfl)] at hand hbd
      exact hsplit a b ha hb hand hbd

/-! ### The Node contract of spec §4.1 and the frame of `process` -/

theorem nodeImplOps_wf : OpsWF nodeImplOps := by
  refine ⟨?_, ?_, ?_, ?_, ?_, ?_⟩
  · intro n i v
    cases n <;> rcases i with _ | _ | i <;> rfl
  · intro n
    cases n <;> rfl
  · intro n i v
    cases n <;> rcases i with _ | _ | i <;> rfl
  · intro n
    cases n <;> rfl
  · intro n i v
    cases n <;> rcases i with _ | _ | i <;> rfl
  · intro n
    cases n <;> rfl

theorem sameShape_refl {N : Type} (ops : NodeOps N) (m : List (Nat × N)) :
    SameShape ops m m := by
  refine ⟨rfl, ?_⟩
  intro k n n' h h'
  rw [h] at h'
  injection h' with h'
  subst h'
  exact ⟨rfl, rfl, rfl⟩

theorem sameShape_update {N : Type} {ops : NodeOps N} {m m' : List (Nat × N)}
    (hs : SameShape ops m m') (k : Nat) (f : N → N)
    (hf : ∀ n, ShapeEq ops n (f n)) : SameShape ops m (mapUpdate m' k f) := by
  refine ⟨by rw [mapKeys_update]; exact hs.keys, ?_⟩
  intro j n n' hj hj'
  rw [mapGet_update] at hj'
  by_cases hjk : j = k
  · rw [if_pos hjk] at hj'
    cases hmg : mapGet m' j with
    | none =>
      rw [hmg] at hj'
      cases hj'
    | some w =>
      rw [hmg] at hj'
      injection hj' with hj'
      subst hj'
      obtain ⟨h1, h2, h3⟩ := hs.shape j n w hj hmg
      obtain ⟨g1, g2, g3⟩ := hf w
      exact ⟨g1.trans h1, g2.trans h2, g3.trans h3⟩
  · rw [if_neg hjk] at hj'
    exact hs.shape j n n' hj hj'

theorem sameShape_foldl {α N : Type} (ops : NodeOps N)
    (f : List (Nat × N) → α → List (Nat × N)) (l : List α) (m₀ : List (Nat × N))
    (hf : ∀ m a, SameShape ops m₀ m → SameShape ops m₀ (f m a)) :
    ∀ m, SameShape ops m₀ m → SameShape ops m₀ (l.foldl f m) := by
  induction l with
  | nil =>
    intro m hm
    exact hm
  | cons a l ih =>
    intro m hm
    exact ih (f m a) (hf m a hm)

theorem mapKeys_foldl {α N : Type} (f : List (Nat × N) → α → List (Nat × N))
    (l : List α) (hf : ∀ m a, mapKeys (f m a) = mapKeys m) :
    ∀ m, mapKeys (l.foldl f m) = mapKeys m := by
  induction l with
  | nil =>
    intro m
    rfl
  | cons a l ih =>
    intro m
    rw [List.foldl_cons, ih, hf]

theorem process_keys {N : Type} (ops : NodeOps N) (g : Graph N) :
    mapKeys (g.process ops).nodes = mapKeys g.nodes := by
  simp only [Graph.process]
  apply mapKeys_foldl
  intro m node
  rw [mapKeys_update]
  apply mapKeys_foldl
  intro m' c
  by_cases hc : c.target_node = node
  · rw [if_pos hc, mapKeys_update]
  · rw [if_neg hc]

theorem process_sameShape {N : Type} (ops : NodeOps N) (hwf : OpsWF ops)
    (g : Graph N) : SameShape ops g.nodes (g.process ops).nodes := by
  simp only [Graph.process]
  apply sameShape_foldl ops _ g.processing_order g.nodes ?_ g.nodes
    (sameShape_refl ops g.nodes)
  intro m node hm
  apply sameShape_update _ node ops.process
    (fun n => ⟨hwf.delayed_process n, hwf.inputs_process n, hwf.outputs_process n⟩)
  apply sameShape_foldl ops _ g.connections g.nodes ?_ m hm
  intro m' c hm'
  by_cases hc : c.target_node = node
  · rw [if_pos hc]
    exact sameShape_update hm' c.target_node _
      (fun n => ⟨hwf.delayed_set n _ _, hwf.inputs_set n _ _, hwf.outputs_set n _ _⟩)
  · rw [if_neg hc]
    exact hm'

theorem delayedB_sameShape {N : Type} (ops : NodeOps N) {g g' : Graph N}
    (hs : SameShape ops g.nodes g'.nodes) (x : Nat) :
    delayedB ops g' x = delayedB ops g x := by
  rw [delayedB, delayedB]
  cases hm : mapGet g.nodes x with
  | none =>
    have hm' : mapGet g'.nodes x = none := by
      rw [mapGet_eq_none_iff, hs.keys, ← mapGet_eq_none_iff]
      exact hm
    rw [hm']
  | some n =>
    have hx : x ∈ mapKeys g'.nodes := by
      rw [hs.keys, ← mapGet_isSome_iff, hm]
      rfl
    obtain ⟨n', hm'⟩ := Option.isSome_iff_exists.mp ((mapGet_isSome_iff _ _).mpr hx)
    rw [hm']
    exact (hs.shape x n n' hm hm').1

theorem validate_sameShape {N : Type} (ops : NodeOps N) {g g' : Graph N}
    (hs : SameShape ops g.nodes g'.nodes) (c : Connection)
    (h : g.validate_connection ops c = .ok c) :
    g'.validate_connection ops c = .ok c := by
  have hsrc := (validate_ok_endpoints ops g h).1
  have htgt := (validate_ok_endpoints ops g h).2
  obtain ⟨s, hms⟩ := Option.isSome_iff_exists.mp ((mapGet_isSome_iff _ _).mpr hsrc)
  obtain ⟨t, hmt⟩ := Option.isSome_iff_exists.mp ((mapGet_isSome_iff _ _).mpr htgt)
  obtain ⟨s', hms'⟩ := Option.isSome_iff_exists.mp ((mapGet_isSome_iff _ _).mpr
    (by rw [hs.keys]; exact hsrc))
  obtain ⟨t', hmt'⟩ := Option.isSome_iff_exists.mp ((mapGet_isSome_iff _ _).mpr
    (by rw [hs.keys]; exact htgt))
  simp only [Graph.validate_connection, Graph.get_node, hms, hmt] at h
  simp only [Graph.validate_connection, Graph.get_node, hms', hmt']
  obtain ⟨_, _, hos⟩ := hs.shape _ s s' hms hms'
  obtain ⟨_, hit, _⟩ := hs.shape _ t t' hmt hmt'
  rw [hos, hit]
  split at h
  · cases h
  · split at h
    · cases h
    · rename_i h1 h2
      rw [if_neg h1, if_neg h2]

theorem inv_process {N : Type} (ops : NodeOps N) (hwf : OpsWF ops) (g : Graph N)
    (hinv : Inv ops g) : Inv ops (g.process ops) := by
  have hs := process_sameShape ops hwf g
  have hco : (g.process ops).connections = g.connections := rfl
  have hpo : (g.process ops).processing_order = g.processing_order := rfl
  have hni : (g.process ops).next_node_id = g.next_node_id := rfl
  refine ⟨?_, ?_, ?_, ?_, ?_, ?_, ?_⟩
  · rw [hs.keys]
    exact hinv.keys_nodup
  · intro c hc
    rw [hco] at hc
    exact validate_sameShape ops hs c (hinv.conn_valid c hc)
  · rw [hco]
    exact hinv.unique_inputs
  · intro k hk
    rw [hs.keys] at hk
    rw [hni]
    exact hinv.fresh k hk
  · rw [hpo, hs.keys]
    exact hinv.order_perm
  · intro c hc hcd
    rw [hco] at hc
    rw [delayedB_sameShape ops hs] at hcd
    rw [hpo]
    exact hinv.order_topo c hc hcd
  · intro a b ha hb had hbd
    rw [hpo] at ha hb ⊢
    rw [delayedB_sameShape ops hs] at had hbd
    exact hinv.order_split a b ha hb had hbd

/-! ### States reachable through the public API

A constructor per public mutating operation.  The permutation hypotheses
record the one semantic fact the model keeps of `HashMap` iteration: the
`in_degree` map built by `calc_processing_order` yields each live key
exactly once, in an arbitrary order.  The ghost list `as` records every
`NodeId` ever handed out by `add_node`, in order. -/

theorem add_connection_next {N : Type} (ops : NodeOps N) (π : List Nat)
    (g : Graph N) (c : Connection) {g' : Graph N} {r : Except GraphError Connection}
    (h : g.add_connection ops π c = (g', r)) :
    g'.next_node_id = g.next_node_id := by
  cases r with
  | error e => rw [add_connection_error_frame ops π g c h]
  | ok d => exact (add_connection_ok_char ops π g c h).2.2.2.2.2.1

theorem remove_connection_next {N : Type} (ops : NodeOps N) (π : List Nat)
    (g : Graph N) (c : Connection) {g' : Graph N} {r : Except GraphError Connection}
    (h : g.remove_connection ops π c = some (g', r)) :
    g'.next_node_id = g.next_node_id := by
  rcases remove_connection_char ops π g c h with ⟨_, hEq, _⟩ | ⟨_, _, _, _, hn, _⟩
  · rw [hEq]
  · exact hn

theorem remove_node_next {N : Type} (ops : NodeOps N) (π : List Nat)
    (g : Graph N) (id : Nat) {g' : Graph N} {r : Except GraphError N}
    (h : g.remove_node ops π id = some (g', r)) :
    g'.next_node_id = g.next_node_id := by
  rcases remove_node_char ops π g id h with ⟨_, hEq, _⟩ | ⟨n, _, _, _, _, hn, _⟩
  · rw [hEq]
  · exact hn

/-- Every reachable state satisfies the graph invariant, and the ids handed
out so far are exactly `0, 1, …, next_node_id - 1`, in this order. -/
theorem reachableTr_inv {N : Type} (ops : NodeOps N) (hwf : OpsWF ops)
    {g : Graph N} {as : List Nat} (h : ReachableTr ops g as) :
    Inv ops g ∧ as = List.range g.next_node_id := by
  induction h with
  | new => exact ⟨inv_new ops, rfl⟩
  | add_node π n hr hπ hop ih =>
    obtain ⟨hinv, has⟩ := ih
    obtain ⟨hid, _, _, hnext, _, _⟩ := add_node_some_char ops π _ n hop
    refine ⟨inv_add_node ops π _ n hinv hπ hop, ?_⟩
    rw [has, hnext, hid, List.range_succ]
  | add_connection π c hr hπ hop ih =>
    obtain ⟨hinv, has⟩ := ih
    refine ⟨inv_add_connection ops π _ c hinv hπ hop, ?_⟩
    rw [has, add_connection_next ops π _ c hop]
  | remove_connection π c hr hπ hop ih =>
    obtain ⟨hinv, has⟩ := ih
    refine ⟨inv_remove_connection ops π _ c hinv hπ hop, ?_⟩
    rw [has, remove_connection_next ops π _ c hop]
  | remove_node π id hr hπ hop ih =>
    obtain ⟨hinv, has⟩ := ih
    refine ⟨inv_remove_node ops π _ id hinv hπ hop, ?_⟩
    rw [has, remove_node_next ops π _ id hop]
  | process hr ih =>
    obtain ⟨hinv, has⟩ := ih
    exact ⟨inv_process ops hwf _ hinv, has⟩

theorem reachable_inv {N : Type} (ops : NodeOps N) (hwf : OpsWF ops)
    {g : Graph N} (h : Reachable ops g) : Inv ops g := by
  obtain ⟨as, htr⟩ := h
  exact (reachableTr_inv ops hwf htr).1

/-! ### The internal recomputations of `add_node`, `remove_connection` and
`remove_node` never fail on invariant-preserving states -/

theorem calcValid_insert {N : Type} (ops : NodeOps N) (g : Graph N) (n : N)
    (hinv : Inv ops g) :
    CalcValid ops { g with nodes := mapInsert g.nodes g.next_node_id n } := by
  have hfreshK : g.next_node_id ∉ mapKeys g.nodes := fun hk =>
    lt_irrefl _ (hinv.fresh _ hk)
  have hkeys' : mapKeys (mapInsert g.nodes g.next_node_id n) =
      mapKeys g.nodes ++ [g.next_node_id] := mapKeys_insert_not_mem _ _ _ hfreshK
  refine ⟨?_, ?_, ?_⟩
  · show (mapKeys (mapInsert g.nodes g.next_node_id n)).Nodup
    rw [hkeys', List.nodup_append]
    refine ⟨hinv.keys_nodup, List.nodup_singleton _, ?_⟩
    intro a ha hb
    rw [List.mem_singleton] at hb
    subst hb
    exact hfreshK ha
  · intro c hc
    show c.source_node ∈ mapKeys (mapInsert g.nodes g.next_node_id n)
    rw [hkeys']
    exact List.mem_append.mpr
      (Or.inl (validate_ok_endpoints ops g (hinv.conn_valid c hc)).1)
  · intro c hc
    show c.target_node ∈ mapKeys (mapInsert g.nodes g.next_node_id n)
    rw [hkeys']
    exact List.mem_append.mpr
      (Or.inl (validate_ok_endpoints ops g (hinv.conn_valid c hc)).2)

theorem add_node_calc_ok {N : Type} (ops : NodeOps N) (g : Graph N) (n : N)
    (π : List Nat) (hinv : Inv ops g)
    (hπ : π.Perm (mapKeys (mapInsert g.nodes g.next_node_id n))) :
    ∃ L, Graph.calc_processing_order ops
      { g with nodes := mapInsert g.nodes g.next_node_id n } π = .ok L := by
  have hfreshK : g.next_node_id ∉ mapKeys g.nodes := fun hk =>
    lt_irrefl _ (hinv.fresh _ hk)
  cases hcalc : Graph.calc_processing_order ops
      { g with nodes := mapInsert g.nodes g.next_node_id n } π with
  | error e =>
    exfalso
    have he := calc_error_unique ops _ π hcalc
    subst he
    obtain ⟨l, hl⟩ := (calc_error_iff ops _ π (calcValid_insert ops g n hinv) hπ).mp hcalc
    apply hinv.no_cycle l
    apply cycle_transfer ops ?_ ?_ hl
    · intro c hc
      exact hc
    intro x hx
    obtain ⟨y, c, hcm, hcs, _⟩ := hx
    have hxk : x ∈ mapKeys g.nodes := by
      rw [← hcs]
      exact (validate_ok_endpoints ops g (hinv.conn_valid c hcm)).1
    have hxne : x ≠ g.next_node_id := fun he => hfreshK (he ▸ hxk)
    show delayedB ops { g with nodes := mapInsert g.nodes g.next_node_id n } x =
      delayedB ops g x
    rw [delayedB, delayedB]
    show ((mapGet (mapInsert g.nodes g.next_node_id n) x).map _).getD false = _
    rw [mapGet_insert_not_mem _ _ _ _ hfreshK, if_neg hxne]
  | ok L => exact ⟨L, rfl⟩

theorem add_node_isSome {N : Type} (ops : NodeOps N) (g : Graph N) (n : N)
    (π : List Nat) (hinv : Inv ops g)
    (hπ : π.Perm (mapKeys (mapInsert g.nodes g.next_node_id n)))
    (hof : g.next_node_id + 1 < 2 ^ 32) :
    ∃ p, g.add_node ops π n = some p := by
  obtain ⟨L, hcalc⟩ := add_node_calc_ok ops g n π hinv hπ
  simp only [Graph.add_node, hcalc]
  rw [if_pos hof]
  exact ⟨_, rfl⟩

theorem remove_connection_calc_ok {N : Type} (ops : NodeOps N) (g : Graph N)
    (c : Connection) (π : List Nat) (hinv : Inv ops g)
    (hπ : π.Perm (mapKeys g.nodes)) :
    ∃ L, Graph.calc_processing_order ops
      { g with connections := g.connections.filter (fun x => x ≠ c) } π = .ok L := by
  have hv : CalcValid ops
      { g with connections := g.connections.filter (fun x => x ≠ c) } := by
    refine ⟨hinv.keys_nodup, ?_, ?_⟩
    · intro c' hc'
      exact (validate_ok_endpoints ops g
        (hinv.conn_valid c' (List.mem_of_mem_filter hc'))).1
    · intro c' hc'
      exact (validate_ok_endpoints ops g
        (hinv.conn_valid c' (List.mem_of_mem_filter hc'))).2
  cases hcalc : Graph.calc_processing_order ops
      { g with connections := g.connections.filter (fun x => x ≠ c) } π with
  | error e =>
    exfalso
    have he := calc_error_unique ops _ π hcalc
    subst he
    obtain ⟨l, hl⟩ := (calc_error_iff ops _ π hv hπ).mp hcalc
    refine hinv.no_cycle l (cycle_mono ops ?_ ?_ hl)
    · rfl
    · intro c' hc'
      exact List.mem_of_mem_filter hc'
  | ok L => exact ⟨L, rfl⟩

theorem remove_connection_isSome {N : Type} (ops : NodeOps N) (g : Graph N)
    (c : Connection) (π : List Nat) (hinv : Inv ops g)
    (hπ : π.Perm (mapKeys g.nodes)) :
    ∃ p, g.remove_connection ops π c = some p := by
  rw [Graph.remove_connection]
  by_cases hmem : c ∈ g.connections
  · rw [if_pos hmem]
    obtain ⟨L, hcalc⟩ := remove_connection_calc_ok ops g c π hinv hπ
    rw [hcalc]
    exact ⟨_, rfl⟩
  · rw [if_neg hmem]
    exact ⟨_, rfl⟩

theorem remove_node_calc_ok {N : Type} (ops : NodeOps N) (g : Graph N)
    (id : Nat) (π : List Nat) (hinv : Inv ops g)
    (hπ : π.Perm (mapKeys (mapRemove g.nodes id))) :
    ∃ L, Graph.calc_processing_order ops (removeNodeBase ops g id) π = .ok L := by
  have hkept : ∀ c ∈ (removeNodeBase ops g id).connections,
      Graph.validate_connection ops { g with nodes := mapRemove g.nodes id } c =
        .ok c := by
    intro c hc
    have hb := List.of_mem_filter hc
    obtain ⟨d, hd⟩ := except_toBool_true hb
    have := validate_ok_eq ops _ hd
    rw [this] at hd
    exact hd
  have hv : CalcValid ops (removeNodeBase ops g id) := by
    refine ⟨?_, ?_, ?_⟩
    · show (mapKeys (mapRemove g.nodes id)).Nodup
      rw [mapKeys_remove]
      exact hinv.keys_nodup.filter _
    · intro c hc
      exact (validate_ok_endpoints ops _ (hkept c hc)).1
    · intro c hc
      exact (validate_ok_endpoints ops _ (hkept c hc)).2
  cases hcalc : Graph.calc_processing_order ops (removeNodeBase ops g id) π with
  | error e =>
    exfalso
    have he := calc_error_unique ops _ π hcalc
    subst he
    obtain ⟨l, hl⟩ := (calc_error_iff ops _ π hv hπ).mp hcalc
    apply hinv.no_cycle l
    apply cycle_transfer ops (fun c hc => List.mem_of_mem_filter hc) ?_ hl
    intro x hx
    obtain ⟨y, c, hcm, hcs, _⟩ := hx
    have hxk : x ∈ mapKeys (mapRemove g.nodes id) := by
      rw [← hcs]
      exact (validate_ok_endpoints ops _ (hkept c hcm)).1
    have hxne : x ≠ id := by
      intro he
      rw [mapKeys_remove, List.mem_filter] at hxk
      have := hxk.2
      rw [he] at this
      simp at this
    show delayedB ops (removeNodeBase ops g id) x = delayedB ops g x
    rw [delayedB, delayedB]
    show ((mapGet (mapRemove g.nodes id) x).map _).getD false = _
    rw [mapGet_remove, if_neg hxne]
  | ok L => exact ⟨L, rfl⟩

theorem remove_node_isSome {N : Type} (ops : NodeOps N) (g : Graph N)
    (id : Nat) (π : List Nat) (hinv : Inv ops g)
    (hπ : π.Perm (mapKeys (mapRemove g.nodes id))) :
    ∃ p, g.remove_node ops π id = some p := by
  rw [Graph.remove_node]
  cases hget : mapGet g.nodes id with
  | none => exact ⟨_, rfl⟩
  | some n =>
    obtain ⟨L, hcalc⟩ := remove_node_calc_ok ops g id π hinv hπ
    have hcalc' : Graph.calc_processing_order ops
        { g with
          nodes := mapRemove g.nodes id
          connections := g.connections.filter (fun c =>
            (Graph.validate_connection ops
              { g with nodes := mapRemove g.nodes id } c).toBool) } π = .ok L := hcalc
    rw [hcalc']
    exact ⟨_, rfl⟩

/-- On an invariant-satisfying graph, the connections kept by `remove_node`
are exactly those that touch the removed node in neither endpoint. -/
theorem removeNodeBase_connections {N : Type} (ops : NodeOps N) (g : Graph N)
    (id : Nat) (hinv : Inv ops g) :
    (removeNodeBase ops g id).connections =
      g.connections.filter
        (fun c => decide (c.source_node ≠ id) && decide (c.target_node ≠ id)) := by
  simp only [removeNodeBase]
  apply List.filter_congr
  intro c hc
  have hval := hinv.conn_valid c hc
  obtain ⟨s, hms⟩ := Option.isSome_iff_exists.mp ((mapGet_isSome_iff _ _).mpr
    (validate_ok_endpoints ops g hval).1)
  obtain ⟨t, hmt⟩ := Option.isSome_iff_exists.mp ((mapGet_isSome_iff _ _).mpr
    (validate_ok_endpoints ops g hval).2)
  simp only [Graph.validate_connection, Graph.get_node, hms, hmt] at hval
  by_cases hs : c.source_node = id
  · simp [Graph.validate_connection, Graph.get_node, mapGet_remove, hs, Except.toBool]
  · by_cases ht : c.target_node = id
    · simp [Graph.validate_connection, Graph.get_node, mapGet_remove, hs, ht,
        hms, Except.toBool]
    · simp only [Graph.validate_connection, Graph.get_node, mapGet_remove,
        if_neg hs, if_neg ht, hms, hmt]
      split at hval
      · cases hval
      · split at hval
        · cases hval
        · rename_i h1 h2
          rw [if_neg h1, if_neg h2]
          simp [hs, ht, Except.toBool]

/-- With a validating connection whose target pair is occupied,
`add_connection` reports `InputAlreadyConnected` and leaves the graph
unchanged, whatever the proposed source node and output. -/
theorem add_connection_occupied {N : Type} (ops : NodeOps N) (π : List Nat)
    (g : Graph N) (c : Connection)
    (hval : g.validate_connection ops c = .ok c)
    (d : Connection) (hd : d ∈ g.connections)
    (ht : d.target_node = c.target_node) (hi : d.target_input = c.target_input) :
    g.add_connection ops π c =
      (g, .error (.InputAlreadyConnected c.target_node c.target_input)) := by
  have hfind : (g.connections.find? (fun c' =>
      c'.target_node == c.target_node &&
      c'.target_input == c.target_input)).isSome = true := by
    cases hfo : g.connections.find? (fun c' =>
        c'.target_node == c.target_node &&
        c'.target_input == c.target_input) with
    | none =>
      exfalso
      have := List.find?_eq_none.mp hfo d hd
      simp only [Bool.and_eq_true, beq_iff_eq] at this
      exact this ⟨ht, hi⟩
    | some w => rfl
  simp only [Graph.add_connection, hval]
  rw [if_pos hfind]

/-! ### Concrete reachable states (the feedback scenario of `lib.rs` and the
`graph.rs` tests, rebuilt through the public API) -/

theorem fb_reachable : ReachableTr nodeImplOps feedbackGraph [0, 1, 2] := by
  have h1 : ReachableTr nodeImplOps fbG1 ([] ++ [0]) :=
    .add_node [0] (NodeImpl.newVariable 1) .new (by decide) (by rfl)
  have h2 : ReachableTr nodeImplOps fbG2 (([] ++ [0]) ++ [1]) :=
    .add_node [0, 1] NodeImpl.newAddition h1 (by decide) (by rfl)
  have h3 : ReachableTr nodeImplOps fbG3 ((([] ++ [0]) ++ [1]) ++ [2]) :=
    .add_node [2, 0, 1] NodeImpl.newDelay h2 (by decide) (by rfl)
  have h4 : ReachableTr nodeImplOps fbG4 ((([] ++ [0]) ++ [1]) ++ [2]) :=
    .add_connection [1, 2, 0] fbC1 h3 (by decide) (by rfl)
  have h5 : ReachableTr nodeImplOps fbG5 ((([] ++ [0]) ++ [1]) ++ [2]) :=
    .add_connection [0, 2, 1] fbC2 h4 (by decide) (by rfl)
  have h6 : ReachableTr nodeImplOps feedbackGraph ((([] ++ [0]) ++ [1]) ++ [2]) :=
    .add_connection [1, 0, 2] fbC3 h5 (by decide) (by rfl)
  exact h6

theorem twoVarBase_reachable : ReachableTr nodeImplOps twoVarBase [0, 1] := by
  have h1 : ReachableTr nodeImplOps fbG1 ([] ++ [0]) :=
    .add_node [0] (NodeImpl.newVariable 1) .new (by decide) (by rfl)
  have h2 : ReachableTr nodeImplOps twoVarBase (([] ++ [0]) ++ [1]) :=
    .add_node [0, 1] (NodeImpl.newVariable 2) h1 (by decide) (by rfl)
  exact h2

theorem twoVar_reachable : ReachableTr nodeImplOps twoVarGraph [0, 1] :=
  .add_connection [0, 1] (Connection.new 0 0 1 0) twoVarBase_reachable
    (by decide) (by rfl)

/-! ### The claims -/

/-- C1: on every API-reachable graph (with nodes obeying the `Node` contract),
every connection whose source is non-delaying has its source strictly before
its target in the cached processing order, and every delaying node appears
after every non-delaying node of the order. -/
theorem C1_order_invariant {N : Type} (ops : NodeOps N) (hwf : OpsWF ops)
    (g : Graph N) (hg : Reachable ops g) :
    (∀ c ∈ g.connections, delayedB ops g c.source_node = false →
      List.Sublist [c.source_node, c.target_node] g.processing_order) ∧
    (∀ a b, a ∈ g.processing_order → b ∈ g.processing_order →
      delayedB ops g a = false → delayedB ops g b = true →
      List.Sublist [a, b] g.processing_order) := by
  have hinv := reachable_inv ops hwf hg
  exact ⟨hinv.order_topo, hinv.order_split⟩

theorem C1_order_invariant_witness :
    List.Sublist [0, 1] feedbackGraph.processing_order :=
  (C1_order_invariant nodeImplOps nodeImplOps_wf feedbackGraph
    ⟨[0, 1, 2], fb_reachable⟩).1 fbC1 (by decide) (by rfl)

/-- C2: on every API-reachable graph, the cached processing order is a
duplicate-free permutation of the live node ids — every live id exactly once
and nothing else. -/
theorem C2_order_is_live_permutation {N : Type} (ops : NodeOps N)
    (hwf : OpsWF ops) (g : Graph N) (hg : Reachable ops g) :
    g.processing_order.Perm (mapKeys g.nodes) ∧ g.processing_order.Nodup := by
  have hinv := reachable_inv ops hwf hg
  exact ⟨hinv.order_perm, hinv.order_perm.nodup_iff.mpr hinv.keys_nodup⟩

theorem C2_order_is_live_permutation_witness :
    feedbackGraph.processing_order.Perm (mapKeys feedbackGraph.nodes) ∧
    feedbackGraph.processing_order.Nodup :=
  C2_order_is_live_permutation nodeImplOps nodeImplOps_wf feedbackGraph
    ⟨[0, 1, 2], fb_reachable⟩

/-- C3: on a reachable graph, when the proposed connection validates and its
target input is free, `add_connection` reports `CycleWithoutDelay` exactly
when the extended connection set has a dependency cycle of non-delaying
nodes; and on any error the returned graph state equals the input state. -/
theorem C3_add_connection_cycle {N : Type} (ops : NodeOps N) (hwf : OpsWF ops)
    (g : Graph N) (hg : Reachable ops g) (π : List Nat)
    (hπ : π.Perm (mapKeys g.nodes)) (c : Connection) :
    (g.validate_connection ops c = .ok c →
      (g.connections.find? (fun c' => c'.target_node == c.target_node &&
        c'.target_input == c.target_input)).isSome = false →
      ((g.add_connection ops π c).2 = .error .CycleWithoutDelay ↔
        ∃ l, IsUndelayedCycle ops
          { g with connections := g.connections ++ [c] } l)) ∧
    (∀ g' e, g.add_connection ops π c = (g', .error e) → g' = g) := by
  have hinv := reachable_inv ops hwf hg
  constructor
  · intro hval hfree
    have hv1 : CalcValid ops { g with connections := g.connections ++ [c] } := by
      refine ⟨hinv.keys_nodup, ?_, ?_⟩
      · intro c' hc'
        rcases List.mem_append.mp hc' with h | h
        · exact (validate_ok_endpoints ops g (hinv.conn_valid c' h)).1
        · rw [List.mem_singleton] at h
          subst h
          exact (validate_ok_endpoints ops g hval).1
      · intro c' hc'
        rcases List.mem_append.mp hc' with h | h
        · exact (validate_ok_endpoints ops g (hinv.conn_valid c' h)).2
        · rw [List.mem_singleton] at h
          subst h
          exact (validate_ok_endpoints ops g hval).2
    have hfree' : ¬ ((g.connections.find? (fun c' =>
        c'.target_node == c.target_node &&
        c'.target_input == c.target_input)).isSome = true) := by
      rw [hfree]
      exact Bool.false_ne_true
    simp only [Graph.add_connection, hval]
    rw [if_neg hfree']
    cases hcalc : Graph.calc_processing_order ops
        { g with connections := g.connections ++ [c] } π with
    | error e =>
      have he := calc_error_unique ops _ π hcalc
      subst he
      constructor
      · intro _
        exact (calc_error_iff ops _ π hv1 hπ).mp hcalc
      · intro _
        rfl
    | ok L =>
      constructor
      · intro hfalse
        cases hfalse
      · rintro ⟨l, hl⟩
        exfalso
        have := (calc_error_iff ops _ π hv1 hπ).mpr ⟨l, hl⟩
        rw [hcalc] at this
        cases this
  · intro g' e h
    exact add_connection_error_frame ops π g c h

theorem C3_add_connection_cycle_witness :
    (twoVarGraph.add_connection nodeImplOps [1, 0] (Connection.new 1 0 0 0)).2 =
      .error .CycleWithoutDelay ↔
    ∃ l, IsUndelayedCycle nodeImplOps
      { twoVarGraph with connections :=
          twoVarGraph.connections ++ [Connection.new 1 0 0 0] } l :=
  (C3_add_connection_cycle nodeImplOps nodeImplOps_wf twoVarGraph
    ⟨[0, 1], twoVar_reachable⟩ [1, 0] (by decide) (Connection.new 1 0 0 0)).1
    (by rfl) (by rfl)

/-- C4: in the feedback scenario (Variable 1.0 into sum node 1, delay node 2
fed from node 1 and feeding node 1's second input), node 1's output after
one, two and three `process` calls is 1, 2 and 3; and a `Delay` node's
`process` latches the input held before the call into the output. -/
theorem C4_feedback_scenario :
    Reachable nodeImplOps feedbackGraph ∧
    ((mapGet (Graph.process nodeImplOps feedbackGraph).nodes 1).map
      (fun n => nodeImplOps.get_output n 0)) = some 1 ∧
    ((mapGet (Graph.process nodeImplOps
        (Graph.process nodeImplOps feedbackGraph)).nodes 1).map
      (fun n => nodeImplOps.get_output n 0)) = some 2 ∧
    ((mapGet (Graph.process nodeImplOps (Graph.process nodeImplOps
        (Graph.process nodeImplOps feedbackGraph))).nodes 1).map
      (fun n => nodeImplOps.get_output n 0)) = some 3 ∧
    (∀ a b : ℚ, nodeImplOps.get_output
      (nodeImplOps.process (NodeImpl.Delay (a, b))) 0 = a) := by
  refine ⟨⟨[0, 1, 2], fb_reachable⟩, ?_, ?_, ?_, fun a b => rfl⟩ <;>
  norm_num [Graph.process, feedbackGraph, fbG3, fbC1, fbC2, fbC3, Connection.new,
    nodeImplOps, mapGet, mapUpdate, mapKeys]

/-- C5: on a reachable graph, `remove_node` of a dead id fails with
`NodeNotExists` and changes nothing; of a live id it removes the node,
drops exactly the connections touching it at either endpoint, recomputes the
cached order for the remaining ids, and returns the removed node. -/
theorem C5_remove_node {N : Type} (ops : NodeOps N) (hwf : OpsWF ops)
    (g : Graph N) (hg : Reachable ops g) (id : Nat) (π : List Nat)
    (hπ : π.Perm (mapKeys (mapRemove g.nodes id))) :
    (mapGet g.nodes id = none →
      g.remove_node ops π id = some (g, .error (.NodeNotExists id))) ∧
    (∀ n, mapGet g.nodes id = some n →
      ∃ g', g.remove_node ops π id = some (g', .ok n) ∧
        g'.nodes = mapRemove g.nodes id ∧
        g'.connections = g.connections.filter
          (fun c => decide (c.source_node ≠ id) && decide (c.target_node ≠ id)) ∧
        g'.next_node_id = g.next_node_id ∧
        g'.processing_order.Perm (mapKeys (mapRemove g.nodes id))) := by
  have hinv := reachable_inv ops hwf hg
  constructor
  · intro hnone
    simp only [Graph.remove_node, hnone]
  · intro n hsome
    obtain ⟨p, hp⟩ := remove_node_isSome ops g id π hinv hπ
    rcases p with ⟨g', r⟩
    rcases remove_node_char ops π g id hp with ⟨hnone, _, _⟩ |
      ⟨n', hget', hr, hnodes, hconns, hnext, hcalc⟩
    · rw [hsome] at hnone
      cases hnone
    · rw [hsome] at hget'
      injection hget' with hn'
      subst hn'
      have hinv' := inv_remove_node ops π g id hinv hπ hp
      refine ⟨g', ?_, hnodes, ?_, hnext, ?_⟩
      · rw [hp, hr]
      · rw [hconns, removeNodeBase_connections ops g id hinv]
      · have := hinv'.order_perm
        rw [hnodes] at this
        exact this

theorem C5_remove_node_witness :
    ∃ g', feedbackGraph.remove_node nodeImplOps [0, 2] 1 =
        some (g', .ok (NodeImpl.Addition (0, 0) 0)) ∧
      g'.nodes = mapRemove feedbackGraph.nodes 1 ∧
      g'.connections = feedbackGraph.connections.filter
        (fun c => decide (c.source_node ≠ 1) && decide (c.target_node ≠ 1)) ∧
      g'.next_node_id = feedbackGraph.next_node_id ∧
      g'.processing_order.Perm (mapKeys (mapRemove feedbackGraph.nodes 1)) :=
  (C5_remove_node nodeImplOps nodeImplOps_wf feedbackGraph
    ⟨[0, 1, 2], fb_reachable⟩ 1 [0, 2] (by decide)).2
    (NodeImpl.Addition (0, 0) 0) (by rfl)

/-- C6 (corrected): on every reachable graph at most one connection targets
any `(target_node, target_input)` pair, and `add_connection` of a
*validating* connection onto an occupied pair fails with
`InputAlreadyConnected` whatever its source node and output.  (The original
claim's "regardless of the proposed source node and source output" is
refuted by `C6_counterexample`: validation runs first, so a dangling source
yields `NodeNotExists` instead.) -/
theorem C6_unique_input_targets {N : Type} (ops : NodeOps N) (hwf : OpsWF ops)
    (g : Graph N) (hg : Reachable ops g) :
    g.connections.Pairwise (fun c d => c.target_node ≠ d.target_node ∨
      c.target_input ≠ d.target_input) ∧
    (∀ π c, g.validate_connection ops c = .ok c →
      (∃ d ∈ g.connections, d.target_node = c.target_node ∧
        d.target_input = c.target_input) →
      g.add_connection ops π c =
        (g, .error (.InputAlreadyConnected c.target_node c.target_input))) := by
  have hinv := reachable_inv ops hwf hg
  refine ⟨hinv.unique_inputs, ?_⟩
  rintro π c hval ⟨d, hd, ht, hi⟩
  exact add_connection_occupied ops π g c hval d hd ht hi

theorem C6_unique_input_targets_witness :
    twoVarGraph.connections.Pairwise (fun c d => c.target_node ≠ d.target_node ∨
      c.target_input ≠ d.target_input) ∧
    twoVarGraph.add_connection nodeImplOps [0, 1] (Connection.new 0 0 1 0) =
      (twoVarGraph, .error (.InputAlreadyConnected 1 0)) := by
  have h := C6_unique_input_targets nodeImplOps nodeImplOps_wf twoVarGraph
    ⟨[0, 1], twoVar_reachable⟩
  exact ⟨h.1, h.2 [0, 1] (Connection.new 0 0 1 0) (by rfl)
    ⟨Connection.new 0 0 1 0, by decide, rfl, rfl⟩⟩

/-- C6 counterexample: on the reachable graph `twoVarGraph` the input
`(1, 0)` is already connected, yet proposing source node 99 (not live) gives
`NodeNotExists 99`, not `InputAlreadyConnected` — the claim's "regardless of
the proposed source node and source output" fails. -/
theorem C6_counterexample :
    Reachable nodeImplOps twoVarGraph ∧
    (∃ d ∈ twoVarGraph.connections, d.target_node = 1 ∧ d.target_input = 0) ∧
    (twoVarGraph.add_connection nodeImplOps [0, 1]
      (Connection.new 99 0 1 0)).2 = .error (.NodeNotExists 99) :=
  ⟨⟨[0, 1], twoVar_reachable⟩,
    ⟨Connection.new 0 0 1 0, by decide, rfl, rfl⟩, by rfl⟩

/-- C7: on any graph satisfying the ordering invariant, the internal order
recomputation of `add_node` always succeeds, and `remove_connection` and
`remove_node` never panic on their recomputation `unwrap`. -/
theorem C7_recompute_never_fails {N : Type} (ops : NodeOps N) (g : Graph N)
    (hinv : Inv ops g) :
    (∀ n π, π.Perm (mapKeys (mapInsert g.nodes g.next_node_id n)) →
      ∃ L, Graph.calc_processing_order ops
        { g with nodes := mapInsert g.nodes g.next_node_id n } π = .ok L) ∧
    (∀ c π, π.Perm (mapKeys g.nodes) →
      ∃ p, g.remove_connection ops π c = some p) ∧
    (∀ id π, π.Perm (mapKeys (mapRemove g.nodes id)) →
      ∃ p, g.remove_node ops π id = some p) :=
  ⟨fun n π hπ => add_node_calc_ok ops g n π hinv hπ,
    fun c π hπ => remove_connection_isSome ops g c π hinv hπ,
    fun id π hπ => remove_node_isSome ops g id π hinv hπ⟩

theorem C7_recompute_never_fails_witness :
    ∃ p, feedbackGraph.remove_node nodeImplOps [0, 2] 1 = some p :=
  (C7_recompute_never_fails nodeImplOps feedbackGraph
    (reachable_inv nodeImplOps nodeImplOps_wf ⟨[0, 1, 2], fb_reachable⟩)).2.2
    1 [0, 2] (by decide)

/-- C8 (corrected): the outcome of the ordering algorithm on a fixed graph
state is determined up to the `HashMap` iteration order of the fresh
`in_degree` map: any two valid seeding orders agree on success/failure and
emit the same *set* of node ids, but the emitted *sequence* can differ
(`C8_counterexample`), so the original per-sequence determinism claim is
false. -/
theorem C8_order_determinism {N : Type} (ops : NodeOps N) (g : Graph N)
    (π₁ π₂ : List Nat) (hv : CalcValid ops g)
    (h1 : π₁.Perm (mapKeys g.nodes)) (h2 : π₂.Perm (mapKeys g.nodes)) :
    (g.calc_processing_order ops π₁ = .error .CycleWithoutDelay ↔
      g.calc_processing_order ops π₂ = .error .CycleWithoutDelay) ∧
    (∀ L₁ L₂, g.calc_processing_order ops π₁ = .ok L₁ →
      g.calc_processing_order ops π₂ = .ok L₂ → L₁.Perm L₂) := by
  constructor
  · rw [calc_error_iff ops g π₁ hv h1, calc_error_iff ops g π₂ hv h2]
  · intro L₁ L₂ hL1 hL2
    exact ((calc_ok_spec ops g π₁ hv h1 hL1).1).trans
      ((calc_ok_spec ops g π₂ hv h2 hL2).1).symm

theorem C8_order_determinism_witness : ([0, 1] : List Nat).Perm [1, 0] :=
  (C8_order_determinism nodeImplOps twoVarBase [0, 1] [1, 0]
    ⟨by decide, (by intro c hc; cases hc), (by intro c hc; cases hc)⟩
    (by decide) (by decide)).2 [0, 1] [1, 0] (by rfl) (by rfl)

/-- C8 counterexample: on the reachable two-node state `twoVarBase`, the two
valid seeding orders `[0, 1]` and `[1, 0]` both succeed but emit different
sequences — the algorithm's tie-breaking is not a function of the graph
state alone. -/
theorem C8_counterexample :
    Reachable nodeImplOps twoVarBase ∧
    ([0, 1] : List Nat).Perm (mapKeys twoVarBase.nodes) ∧
    ([1, 0] : List Nat).Perm (mapKeys twoVarBase.nodes) ∧
    twoVarBase.calc_processing_order nodeImplOps [0, 1] = .ok [0, 1] ∧
    twoVarBase.calc_processing_order nodeImplOps [1, 0] = .ok [1, 0] ∧
    twoVarBase.calc_processing_order nodeImplOps [0, 1] ≠
      twoVarBase.calc_processing_order nodeImplOps [1, 0] :=
  ⟨⟨[0, 1], twoVarBase_reachable⟩, by decide, by decide, by rfl, by rfl,
    (by
      intro h
      have h' : (Except.ok [0, 1] : Except GraphError (List Nat)) = .ok [1, 0] := h
      injection h' with h'
      exact absurd h' (by decide))⟩

/-- C9: along any API history, the ids handed out by `add_node` are exactly
`0, 1, 2, …` in order: each new id equals the current counter, is distinct
from (indeed greater than) every id ever assigned before — also after
removals — the counter advances by exactly one, and the first id is 0. -/
theorem C9_monotone_ids {N : Type} (ops : NodeOps N) (hwf : OpsWF ops)
    {g : Graph N} {as : List Nat} (h : ReachableTr ops g as) :
    as = List.range g.next_node_id ∧
    (∀ π n g' id, g.add_node ops π n = some (g', id) →
      id = g.next_node_id ∧ id ∉ as ∧ (∀ a ∈ as, a < id) ∧
      g'.next_node_id = id + 1 ∧ (as = [] → id = 0)) := by
  have has := (reachableTr_inv ops hwf h).2
  refine ⟨has, ?_⟩
  intro π n g' id hop
  obtain ⟨hid, _, _, hnext, _, _⟩ := add_node_some_char ops π g n hop
  subst hid
  refine ⟨rfl, ?_, ?_, hnext, ?_⟩
  · rw [has]
    intro hmem
    exact lt_irrefl _ (List.mem_range.mp hmem)
  · intro a ha
    rw [has] at ha
    exact List.mem_range.mp ha
  · intro hnil
    exact List.range_eq_nil.mp (has.symm.trans hnil)

theorem C9_monotone_ids_witness :
    ([] : List Nat) = List.range (Graph.new (N := NodeImpl)).next_node_id ∧
    (0 = (Graph.new (N := NodeImpl)).next_node_id ∧ 0 ∉ ([] : List Nat) ∧
      (∀ a ∈ ([] : List Nat), a < 0) ∧ fbG1.next_node_id = 0 + 1 ∧
      (([] : List Nat) = [] → 0 = 0)) := by
  have h := C9_monotone_ids nodeImplOps nodeImplOps_wf ReachableTr.new
  exact ⟨h.1, h.2 [0] (NodeImpl.newVariable 1) fbG1 0 (by rfl)⟩

/-- C10: `process` never changes the graph's structure — the set of live
node ids, the connection list, the cached order and the id counter are
untouched; only node contents move. -/
theorem C10_process_frame {N : Type} (ops : NodeOps N) (g : Graph N) :
    mapKeys (g.process ops).nodes = mapKeys g.nodes ∧
    (g.process ops).connections = g.connections ∧
    (g.process ops).processing_order = g.processing_order ∧
    (g.process ops).next_node_id = g.next_node_id :=
  ⟨process_keys ops g, rfl, rfl, rfl⟩

end Flowing
